import Mathlib

/-!
# Szólánc: word chains as Hamiltonian paths

A shallow embedding of `src/Szólánc.cpp` and a verification development over it.

Conventions of the embedding.

* A `string` is a `List Char`, a `vector<T>` or a heap array is a `List`.
* Every indexed access to an array or a vector goes through `readAt` / `writeAt`,
  which report `Fault.outOfRange` when the index is outside the allocated block.
* `1 << k` on a 32-bit `int` goes through `shiftOne`, which reports `Fault.overflow`
  when the result is not representable (`k > 30`).
* Loops whose trip count is not bounded by their own guard carry a step budget
  (`fuel`); running out of it is reported as `Fault.outOfFuel`.
-/

namespace Szolanc

/-! ## Runs and memory -/

/-- Ways in which a run of the program leaves its defined behaviour. -/
inductive Fault where
  /-- An element outside an allocated array is read or written. -/
  | outOfRange
  /-- The value of `1 << k` does not fit a 32-bit `int`. -/
  | overflow
  /-- The step budget of the model is used up. -/
  | outOfFuel
  deriving DecidableEq, Repr

/-- Outcome of a run: a value, or the fault that stopped it. -/
abbrev Run := Except Fault

instance instDecidableEqRun {α : Type} [DecidableEq α] : DecidableEq (Run α)
  | .ok a, .ok b => if h : a = b then isTrue (by rw [h]) else isFalse (by intro e; cases e; exact h rfl)
  | .error a, .error b => if h : a = b then isTrue (by rw [h]) else isFalse (by intro e; cases e; exact h rfl)
  | .ok _, .error _ => isFalse (by intro e; cases e)
  | .error _, .ok _ => isFalse (by intro e; cases e)

/-- The read `xs[i]`. -/
def readAt {α : Type} (xs : List α) (i : Nat) : Run α :=
  match xs[i]? with
  | some x => pure x
  | none => throw Fault.outOfRange

/-- The write `xs[i] = v`. -/
def writeAt {α : Type} (xs : List α) (i : Nat) (v : α) : Run (List α) :=
  if i < xs.length then pure (xs.set i v) else throw Fault.outOfRange

/-- The expression `1 << k` on `int`. -/
def shiftOne (k : Nat) : Run Nat :=
  if k ≤ 30 then pure (1 <<< k) else throw Fault.overflow

/-! ## `areOneAway` -/

/-- A word: a `string`. -/
abbrev Word := List Char

/-- Lines 19-22: the counter `difference` after the loop over `i < a.size()`.
The counter is an `int`; it is modelled without wrap-around (the strings would
need more than `2^31` differing positions to overflow it). -/
def difference (a b : Word) : Nat :=
  (List.range a.length).foldl (fun d i => if a[i]? ≠ b[i]? then d + 1 else d) 0

/-- Lines 16-33 of `areOneAway`, after the swap: `a` is not shorter than `b`. -/
def areOneAwayLongShort (a b : Word) : Bool :=
  if a.length - b.length > 1 then false
  else if a.length = b.length then difference a b == 1
  else (List.range a.length).any fun i => a.eraseIdx i == b

/-- The function `areOneAway` (lines 13-34). -/
def areOneAway (a b : Word) : Bool :=
  if a.length < b.length then areOneAwayLongShort b a else areOneAwayLongShort a b

/-! ## `Graph` -/

/-- The class `Graph`: the vertex count and the adjacency matrix. -/
structure Graph where
  size : Nat
  matrix : List (List Bool)
  deriving DecidableEq, Repr

/-- The constructor `Graph(size)`: a `size × size` matrix of `false`. -/
def Graph.new (size : Nat) : Graph :=
  ⟨size, List.replicate size (List.replicate size false)⟩

/-- The member `vertices()`. -/
def Graph.vertices (G : Graph) : Nat := G.size

/-- Reading through `at(i, j)`: the value `matrix[i][j]`. -/
def Graph.atRead (G : Graph) (i j : Nat) : Run Bool := do
  let row ← readAt G.matrix i
  readAt row j

/-- Writing through `at(i, j)`: the assignment `matrix[i][j] = v`. -/
def Graph.atWrite (G : Graph) (i j : Nat) (v : Bool) : Run Graph := do
  let row ← readAt G.matrix i
  let row ← writeAt row j v
  let matrix ← writeAt G.matrix i row
  pure ⟨G.size, matrix⟩

/-! ## `BFS` and `isConnected` -/

/-- The function `BFS` (lines 54-61); `fuel` bounds the depth of the recursion.
The result is the array `visited` after the call. -/
def BFS (G : Graph) : Nat → List Bool → Nat → Run (List Bool)
  | 0, _, _ => throw Fault.outOfFuel
  | fuel + 1, visited, start => do
    let visited ← writeAt visited start true
    (List.range G.vertices).foldlM (fun visited i => do
      if ← G.atRead start i then
        if !(← readAt visited i) then BFS G fuel visited i else pure visited
      else pure visited) visited

/-- The function `isConnected` (lines 65-71). -/
def isConnected (fuel : Nat) (G : Graph) : Run Bool := do
  let visited ← BFS G fuel (List.replicate G.vertices false) 0
  (List.range G.vertices).allM fun i => readAt visited i

/-! ## `findHamiltonianPath` -/

/-- A cell of the table: `pair<bool, int>`. -/
abbrev Entry := Bool × Nat

/-- The table `HAM`: one row of cells for each subset. -/
abbrev Table := List (List Entry)

/-- The read `HAM[S][i]`. -/
def readHAM (HAM : Table) (S i : Nat) : Run Entry := do
  let row ← readAt HAM S
  readAt row i

/-- The write `HAM[S][i] = e`. -/
def writeHAM (HAM : Table) (S i : Nat) (e : Entry) : Run Table := do
  let row ← readAt HAM S
  let row ← writeAt row i e
  writeAt HAM S row

/-- Lines 87-89: `HAM[1 << i][i].first = true` for every vertex `i`. -/
def initSingletons (n : Nat) (HAM : Table) : Run Table :=
  (List.range n).foldlM (fun HAM i => do
    let e ← readHAM HAM (1 <<< i) i
    writeHAM HAM (1 <<< i) i (true, e.2)) HAM

/-- The condition of line 97, evaluated left to right with short-circuit. -/
def fillCond (G : Graph) (HAM : Table) (S i j : Nat) : Run Bool := do
  if S &&& (1 <<< j) ≠ 0 then
    if ← G.atRead i j then
      if i ≠ j then
        let e ← readHAM HAM (S ^^^ (1 <<< i)) j
        pure e.1
      else pure false
    else pure false
  else pure false

/-- Lines 94-101: the loop over `j`, left at the first `j` that passes `fillCond`. -/
def fillLoop (G : Graph) (S i : Nat) : List Nat → Table → Run Table
  | [], HAM => pure HAM
  | j :: js, HAM => do
    if ← fillCond G HAM S i j then writeHAM HAM S i (true, j)
    else fillLoop G S i js HAM

/-- Lines 91-103: the body of the loop over `i` for the subset `S`. -/
def fillCell (G : Graph) (S : Nat) (HAM : Table) (i : Nat) : Run Table :=
  if S &&& (1 <<< i) ≠ 0 then fillLoop G S i (List.range G.vertices) HAM else pure HAM

/-- Lines 90-104: the loops over `S` and `i`. -/
def fillTable (G : Graph) (full : Nat) (HAM : Table) : Run Table :=
  (List.range full).foldlM (fun HAM S =>
    (List.range G.vertices).foldlM (fillCell G S) HAM) HAM

/-- Line 110 on the cells `row[i], row[i+1], ...` still ahead: the first index whose
cell has `first` set; reading past the end of the row is a fault. -/
def scanRow : List Entry → Nat → Run Nat
  | [], _ => throw Fault.outOfRange
  | e :: rest, i => if !e.1 then scanRow rest (i + 1) else pure i

/-- Line 110: `while (!HAM[S][i].first) ++i;`, the value of `i` after the loop. -/
def findEndpoint (HAM : Table) (S i : Nat) : Run Nat := do
  let row ← readAt HAM S
  scanRow (row.drop i) i

/-- Lines 109-115: the backtracking loop; `fuel` bounds the number of iterations. -/
def backtrack (HAM : Table) (n : Nat) : Nat → Nat → Nat → List Nat → Run (List Nat)
  | 0, S, i, order =>
    if S > 0 ∧ i < n then throw Fault.outOfFuel else pure order
  | fuel + 1, S, i, order =>
    if S > 0 ∧ i < n then do
      let i ← findEndpoint HAM S i
      let e ← readHAM HAM S i
      backtrack HAM n fuel (S ^^^ (1 <<< i)) e.2 (order ++ [i])
    else pure order

/-- The function `findHamiltonianPath` (lines 77-117). -/
def findHamiltonianPath (fuel : Nat) (G : Graph) : Run (List Nat) := do
  let full ← shiftOne G.vertices
  let HAM : Table := List.replicate full (List.replicate G.vertices (false, 0))
  let HAM ← initSingletons G.vertices HAM
  let HAM ← fillTable G full HAM
  backtrack HAM G.vertices fuel (full - 1) 0 []

/-- Lines 82-104 of `findHamiltonianPath`: the table `HAM` after the fill loops. -/
def filledHAM (G : Graph) : Run Table := do
  let full ← shiftOne G.vertices
  let HAM : Table := List.replicate full (List.replicate G.vertices (false, 0))
  let HAM ← initSingletons G.vertices HAM
  fillTable G full HAM

/-! ## `wordChain` -/

/-- Lines 133-137: the graph `oneAwayG` built from the words. -/
def oneAwayG (words : List Word) : Run Graph :=
  (List.range words.length).foldlM (fun G i =>
    (List.range words.length).foldlM (fun G j => do
      if areOneAway (← readAt words i) (← readAt words j) then G.atWrite i j true
      else pure G) G) (Graph.new words.length)

/-- Lines 148-150: the words at the positions listed in `order`. -/
def collectWords (words : List Word) (order : List Nat) : Run (List Word) :=
  order.foldlM (fun result i => do pure (result ++ [← readAt words i])) []

/-- The body of `wordChain` (lines 127-153) with the call of line 145 as a parameter. -/
def wordChainWith (solver : Graph → Run (List Nat)) (fuel : Nat) (words : List Word) :
    Run (List Word) := do
  let G ← oneAwayG words
  if !(← isConnected fuel G) then pure []
  else
    let order ← solver G
    collectWords words order

/-- The function `wordChain` (lines 127-153). -/
def wordChain (fuel : Nat) (words : List Word) : Run (List Word) :=
  wordChainWith (findHamiltonianPath fuel) fuel words

/-! ## Views of the data used in the statements -/

/-- The matrix of the graph is `size × size`. -/
def Graph.WF (G : Graph) : Prop :=
  G.matrix.length = G.size ∧ ∀ row ∈ G.matrix, row.length = G.size

/-- The stored value `matrix[i][j]`, `false` outside the matrix. -/
def Graph.adj (G : Graph) (i j : Nat) : Bool :=
  ((G.matrix[i]?.getD [])[j]?).getD false

/-- The word at position `i` of the input, the empty word outside it. -/
def wordAt (words : List Word) (i : Nat) : Word :=
  words[i]?.getD []

/-- The flag `visited[u]`, `false` outside the array. -/
def mark (visited : List Bool) (u : Nat) : Bool :=
  visited[u]?.getD false

/-- There is an edge from `a` to `b` between vertices of the graph. -/
def Graph.Edge (G : Graph) (a b : Nat) : Prop :=
  a < G.size ∧ b < G.size ∧ G.adj a b = true

/-- Vertex `b` is reachable from vertex `a` along edges. -/
def Graph.Reach (G : Graph) (a b : Nat) : Prop :=
  Relation.ReflTransGen G.Edge a b

/-- What a call `BFS(G, visited, start)` establishes, `before` and `after` being the
array before and after the call: marks are kept, `start` is marked, and every newly
marked vertex is reachable from `start` and has all its neighbours marked. -/
def BFSPost (G : Graph) (before : List Bool) (start : Nat) (after : List Bool) : Prop :=
  after.length = G.size ∧
  (∀ u, mark before u = true → mark after u = true) ∧
  mark after start = true ∧
  ∀ u, mark after u = true → mark before u = false →
    (∀ w, w < G.size → G.adj u w = true → mark after w = true) ∧ G.Reach start u

/-- The function `BFS` with a log: the same run, which also records the start vertex of
every call of `BFS` in the order in which the calls are made. -/
def BFSLog (G : Graph) : Nat → List Bool → Nat → Run (List Bool × List Nat)
  | 0, _, _ => throw Fault.outOfFuel
  | fuel + 1, visited, start => do
    let visited ← writeAt visited start true
    (List.range G.vertices).foldlM (fun (s : List Bool × List Nat) i => do
      if ← G.atRead start i then
        if !(← readAt s.1 i) then
          let r ← BFSLog G fuel s.1 i
          pure (r.1, s.2 ++ r.2)
        else pure s
      else pure s) (visited, [start])

/-- The cell `HAM[S][i]`, `(false, 0)` outside the table. -/
def cell (HAM : Table) (S i : Nat) : Entry :=
  ((HAM[S]?.getD [])[i]?).getD (false, 0)

/-- The table has `2^n` rows of `n` cells. -/
def TableWF (HAM : Table) (n : Nat) : Prop :=
  HAM.length = 2 ^ n ∧ ∀ row ∈ HAM, row.length = n

/-- What the fill loops establish for the cell `HAM[S][i]`: `first` is set exactly when
`i ∈ S` and either `S = {i}` or some other `j ∈ S` adjacent to `i` has
`HAM[S \ {i}][j].first` set, and then (for `S ≠ {i}`) `second` is such a `j`. -/
def CellFinal (G : Graph) (HAM : Table) (S i : Nat) : Prop :=
  ((cell HAM S i).1 = true ↔
    S.testBit i = true ∧ (S = 2 ^ i ∨ ∃ j, j < G.size ∧ j ≠ i ∧ S.testBit j = true ∧
      G.adj i j = true ∧ (cell HAM (S ^^^ 2 ^ i) j).1 = true)) ∧
  ((cell HAM S i).1 = true → S ≠ 2 ^ i →
    (cell HAM S i).2 < G.size ∧ (cell HAM S i).2 ≠ i ∧ S.testBit (cell HAM S i).2 = true ∧
      G.adj i (cell HAM S i).2 = true ∧
      (cell HAM (S ^^^ 2 ^ i) (cell HAM S i).2).1 = true)

/-- The state of the table after the fill loops. -/
def Filled (G : Graph) (HAM : Table) : Prop :=
  TableWF HAM G.size ∧ ∀ S i, S < 2 ^ G.size → i < G.size → CellFinal G HAM S i

/-- The condition of line 97 as a value. -/
def fillValue (G : Graph) (HAM : Table) (S i j : Nat) : Bool :=
  S.testBit j && G.adj i j && decide (i ≠ j) && (cell HAM (S ^^^ 2 ^ i) j).1

/-- The number of vertices below `n` that belong to the subset `S`. -/
def card (n S : Nat) : Nat :=
  (List.range n).countP fun i => S.testBit i

/-- The list `path` names every vertex of the subset `S` exactly once, and each vertex
of it is adjacent to the next one. -/
def PathOver (G : Graph) (S : Nat) (path : List Nat) : Prop :=
  path.Nodup ∧ (∀ v, v ∈ path ↔ v < G.size ∧ S.testBit v = true) ∧
    List.Chain' (fun a b => G.adj a b = true) path

/-- The subset whose members are the vertices listed in `path`. -/
def maskOf (path : List Nat) : Nat :=
  path.foldr (fun v m => 2 ^ v ||| m) 0

/-- A Hamiltonian path of the graph: every vertex once, each adjacent to the next. -/
def Graph.HamPath (G : Graph) (path : List Nat) : Prop :=
  path.Perm (List.range G.size) ∧ List.Chain' (fun a b => G.adj a b = true) path

/-- The stored adjacency is symmetric. -/
def Graph.Symm (G : Graph) : Prop :=
  ∀ i j, G.adj i j = G.adj j i

/-! ## Vocabulary of the specification -/

/-- The string `b` is `a` with one character inserted. -/
def Insertion (a b : Word) : Prop :=
  ∃ p s c, a = p ++ s ∧ b = p ++ c :: s

/-- The string `b` is `a` with one character deleted. -/
def Deletion (a b : Word) : Prop :=
  ∃ p s c, a = p ++ c :: s ∧ b = p ++ s

/-- The string `b` is `a` with one character replaced by a different one. -/
def Substitution (a b : Word) : Prop :=
  ∃ p s c d, c ≠ d ∧ a = p ++ c :: s ∧ b = p ++ d :: s

/-- The string `b` results from `a` by exactly one single-character insertion,
deletion or substitution that changes the string. -/
def OneEdit (a b : Word) : Prop :=
  Insertion a b ∨ Deletion a b ∨ Substitution a b

/-- Some ordering of all the words is a chain: each word of it is one edit away from the
next one. -/
def HasChain (words : List Word) : Prop :=
  ∃ r : List Word, r.Perm words ∧ List.Chain' OneEdit r

/-- Every word of the list is `areOneAway` from the next one, as a computation. -/
def chainCheck : List Word → Bool
  | [] => true
  | [_] => true
  | a :: b :: l => areOneAway a b && chainCheck (b :: l)

/-! ## Inputs used in the examples -/

/-- The first test list of `main` (line 159): no two of its words are one edit apart. -/
def testWords1 : List Word :=
  ["alma", "korte", "barack"].map String.toList

/-- A list of three words with a chain. -/
def chainWords : List Word :=
  ["cat", "cog", "cot"].map String.toList

/-- The list `chainWords` in another order. -/
def chainWordsShuffled : List Word :=
  ["cog", "cot", "cat"].map String.toList

/-- A star: `cat` is one edit away from each other word, and no two of the others are
one edit apart. -/
def starWords : List Word :=
  ["cat", "cot", "cab", "bat"].map String.toList

/-- Thirty-one one-letter words; any two of them are one edit apart. -/
def letterWords : List Word :=
  "abcdefghijklmnopqrstuvwxyzABCDE".toList.map fun c => [c]

/-- The path `0 - 1 - 2` as a graph. -/
def pathGraph : Graph :=
  ⟨3, [[false, true, false], [true, false, true], [false, true, false]]⟩

/-- A triangle on the vertices `0, 1, 2` with a self-loop at vertex `0`. -/
def loopGraph : Graph :=
  ⟨3, [[true, true, true], [true, false, true], [true, true, false]]⟩

/-- The one-away graph of `starWords`: vertex `0` is adjacent to `1`, `2` and `3`. -/
def starGraph : Graph :=
  ⟨4, [[false, true, true, true], [true, false, false, false], [true, false, false, false],
    [true, false, false, false]]⟩

theorem readAt_of_lt {α : Type} (xs : List α) (i : Nat) (h : i < xs.length) :
    readAt xs i = .ok (xs.get ⟨i, h⟩) := by
  simp [readAt, List.getElem?_eq_getElem h]
  rfl

theorem readAt_of_le {α : Type} (xs : List α) (i : Nat) (h : xs.length ≤ i) :
    readAt xs i = .error Fault.outOfRange := by
  simp [readAt, List.getElem?_eq_none h]
  rfl

theorem writeAt_of_lt {α : Type} (xs : List α) (i : Nat) (v : α) (h : i < xs.length) :
    writeAt xs i v = .ok (xs.set i v) := by
  simp [writeAt, h]
  rfl

@[simp] theorem run_pure {α : Type} (x : α) : (pure x : Run α) = .ok x := rfl

@[simp] theorem run_throw {α : Type} (e : Fault) : (throw e : Run α) = .error e := rfl

@[simp] theorem run_ok_bind {α β : Type} (x : α) (f : α → Run β) :
    ((Except.ok x : Run α) >>= f) = f x := rfl

@[simp] theorem run_error_bind {α β : Type} (e : Fault) (f : α → Run β) :
    ((Except.error e : Run α) >>= f) = .error e := rfl

theorem readAt_eq_getD {α : Type} (xs : List α) (i : Nat) (d : α) (h : i < xs.length) :
    readAt xs i = .ok (xs[i]?.getD d) := by
  simp [readAt, List.getElem?_eq_getElem h]

/-- Hoare rule for a counted loop: an invariant that holds before the loop and is
carried by every iteration holds after it, and no iteration faults. -/
theorem foldlM_range_inv {σ : Type} (f : σ → Nat → Run σ) (P : Nat → σ → Prop) (n : Nat)
    (s : σ) (h0 : P 0 s)
    (hstep : ∀ k t, k < n → P k t → ∃ t', f t k = .ok t' ∧ P (k + 1) t') :
    ∃ t, (List.range n).foldlM f s = .ok t ∧ P n t := by
  induction n with
  | zero => exact ⟨s, by simp, h0⟩
  | succ n ih =>
    obtain ⟨t, ht, hP⟩ := ih (fun k t hk hP => hstep k t (Nat.lt_succ_of_lt hk) hP)
    obtain ⟨t', ht', hP'⟩ := hstep n t (Nat.lt_succ_self n) hP
    refine ⟨t', ?_, hP'⟩
    rw [List.range_succ, List.foldlM_append, ht]
    simp [ht']

/-! ## Lemmas on `Graph` -/

theorem Graph.new_wf (n : Nat) : (Graph.new n).WF := by
  constructor
  · simp [Graph.new]
  · intro row hrow
    simp only [Graph.new] at hrow
    rw [(List.mem_replicate.1 hrow).2]
    simp [Graph.new]

theorem Graph.new_adj (n i j : Nat) : (Graph.new n).adj i j = false := by
  simp only [Graph.adj, Graph.new, List.getElem?_replicate]
  by_cases hi : i < n
  · by_cases hj : j < n <;> simp [hi, hj]
  · simp [hi]

theorem Graph.row_length (G : Graph) (h : G.WF) (i : Nat) (hi : i < G.size) :
    (G.matrix[i]?.getD []).length = G.size := by
  have hi2 : i < G.matrix.length := by rw [h.1]; exact hi
  rw [List.getElem?_eq_getElem hi2]
  exact h.2 _ (List.getElem_mem hi2)

theorem Graph.atRead_eq (G : Graph) (h : G.WF) (i j : Nat) (hi : i < G.size) (hj : j < G.size) :
    G.atRead i j = .ok (G.adj i j) := by
  have hi2 : i < G.matrix.length := by rw [h.1]; exact hi
  have hrow := G.row_length h i hi
  unfold Graph.atRead Graph.adj
  rw [readAt_eq_getD G.matrix i [] hi2]
  simp only [run_ok_bind]
  exact readAt_eq_getD _ j false (by rw [hrow]; exact hj)

theorem Graph.atWrite_eq (G : Graph) (h : G.WF) (i j : Nat) (v : Bool) (hi : i < G.size)
    (hj : j < G.size) :
    ∃ G2, G.atWrite i j v = .ok G2 ∧ G2.WF ∧ G2.size = G.size ∧
      ∀ a b, G2.adj a b = if a = i ∧ b = j then v else G.adj a b := by
  have hi2 : i < G.matrix.length := by rw [h.1]; exact hi
  have hrow := G.row_length h i hi
  refine ⟨⟨G.size, G.matrix.set i ((G.matrix[i]?.getD []).set j v)⟩, ?_, ?_, rfl, ?_⟩
  · unfold Graph.atWrite
    rw [readAt_eq_getD G.matrix i [] hi2]
    simp only [run_ok_bind]
    rw [writeAt_of_lt _ j v (by rw [hrow]; exact hj)]
    simp only [run_ok_bind]
    rw [writeAt_of_lt _ i _ hi2]
    rfl
  · constructor
    · simp [h.1]
    · intro row hrow2
      rcases List.mem_or_eq_of_mem_set hrow2 with hmem | heq
      · exact h.2 row hmem
      · simp [heq, hrow]
  · intro a b
    simp only [Graph.adj, List.getElem?_set]
    by_cases hai : a = i
    · subst hai
      by_cases hbj : b = j
      · subst hbj
        have hlen : (G.matrix[a]).length = G.size := h.2 _ (List.getElem_mem hi2)
        simp [hi2, hlen, hj]
      · have hjb : ¬ j = b := fun e => hbj e.symm
        simp [hi2, hbj, hjb]
    · have hia : ¬ i = a := fun e => hai e.symm
      simp [hai, hia]

/-- The graph that `wordChain` builds: no access faults, the matrix is `n × n`, and the
entry `(i, j)` is `areOneAway` of the words at positions `i` and `j`. -/
theorem oneAwayG_spec (words : List Word) :
    ∃ G, oneAwayG words = .ok G ∧ G.WF ∧ G.size = words.length ∧
      ∀ i j, G.adj i j =
        (decide (i < words.length ∧ j < words.length) &&
          areOneAway (wordAt words i) (wordAt words j)) := by
  have hout := foldlM_range_inv
    (fun G i => (List.range words.length).foldlM (fun G j => do
      if areOneAway (← readAt words i) (← readAt words j) then G.atWrite i j true
      else pure G) G)
    (fun k G => G.WF ∧ G.size = words.length ∧ ∀ i j, G.adj i j =
      (decide (i < k ∧ j < words.length) && areOneAway (wordAt words i) (wordAt words j)))
    words.length (Graph.new words.length)
    ⟨Graph.new_wf _, rfl, fun i j => by simp [Graph.new_adj]⟩
    (by
      intro k G hk ⟨hwf, hsize, hadj⟩
      have hin := foldlM_range_inv
        (fun G j => do
          if areOneAway (← readAt words k) (← readAt words j) then G.atWrite k j true
          else pure G)
        (fun m G2 => G2.WF ∧ G2.size = words.length ∧ ∀ i j, G2.adj i j =
          (decide ((i < k ∧ j < words.length) ∨ (i = k ∧ j < m)) &&
            areOneAway (wordAt words i) (wordAt words j)))
        words.length G
        ⟨hwf, hsize, fun i j => by rw [hadj]; simp⟩
        (by
          intro m G2 hm ⟨hwf2, hsize2, hadj2⟩
          dsimp only
          rw [readAt_eq_getD words k [] hk, readAt_eq_getD words m [] hm]
          simp only [run_ok_bind]
          by_cases hedge : areOneAway (words[k]?.getD []) (words[m]?.getD []) = true
          · obtain ⟨G3, hG3, hwf3, hsize3, hadj3⟩ :=
              G2.atWrite_eq hwf2 k m true (by rw [hsize2]; exact hk) (by rw [hsize2]; exact hm)
            refine ⟨G3, by simp [hedge, hG3], hwf3, by rw [hsize3, hsize2], ?_⟩
            intro i j
            rw [hadj3, hadj2]
            by_cases hik : i = k
            · by_cases hjm : j = m
              · subst hik; subst hjm
                have hedge2 : areOneAway (wordAt words i) (wordAt words j) = true := hedge
                simp [hedge2]
              · subst hik
                have : j < m + 1 ↔ j < m := by omega
                simp [hjm, this]
            · simp [hik]
          · refine ⟨G2, by simp [hedge], hwf2, hsize2, ?_⟩
            intro i j
            rw [hadj2]
            by_cases hik : i = k
            · by_cases hjm : j = m
              · subst hik; subst hjm
                have hfalse : areOneAway (wordAt words i) (wordAt words j) = false :=
                  Bool.eq_false_iff.2 hedge
                simp [hfalse]
              · subst hik
                have : j < m + 1 ↔ j < m := by omega
                simp [this]
            · simp [hik])
      obtain ⟨G2, hG2, hwf2, hsize2, hadj2⟩ := hin
      refine ⟨G2, hG2, hwf2, hsize2, ?_⟩
      intro i j
      rw [hadj2]
      by_cases hj : j < words.length
      · have : (i < k ∨ i = k) ↔ i < k + 1 := by omega
        simp [hj, this]
      · simp [hj])
  obtain ⟨G, hG, hwf, hsize, hadj⟩ := hout
  exact ⟨G, hG, hwf, hsize, hadj⟩

/-! ## Lemmas on `BFS` and `isConnected` -/

theorem mark_set (v : List Bool) (s u : Nat) (hs : s < v.length) :
    mark (v.set s true) u = (decide (u = s) || mark v u) := by
  unfold mark
  rw [List.getElem?_set]
  by_cases hus : u = s
  · subst hus; simp [hs]
  · have hsu : ¬ s = u := fun e => hus e.symm
    simp [hus, hsu]

theorem mark_lt_length (v : List Bool) (u : Nat) (h : mark v u = true) : u < v.length := by
  by_contra hlt
  simp [mark, List.getElem?_eq_none (Nat.le_of_not_lt hlt)] at h

theorem count_false_mono : ∀ (v t : List Bool), v.length = t.length →
    (∀ u, mark v u = true → mark t u = true) → t.count false ≤ v.count false
  | [], [], _, _ => by simp
  | [], _ :: _, h, _ => by simp at h
  | _ :: _, [], h, _ => by simp at h
  | x :: v, y :: t, h, hm => by
    have ih := count_false_mono v t (by simpa using h) (fun u hu => by
      have := hm (u + 1) (by simpa [mark] using hu)
      simpa [mark] using this)
    have h0 := hm 0
    simp only [mark, List.getElem?_cons_zero, Option.getD_some] at h0
    cases x <;> cases y <;> simp_all [List.count_cons]
    omega

theorem count_false_set : ∀ (v : List Bool) (s : Nat), s < v.length → mark v s = false →
    (v.set s true).count false + 1 = v.count false
  | [], _, h, _ => by simp at h
  | x :: v, 0, _, hm => by
    simp only [mark, List.getElem?_cons_zero, Option.getD_some] at hm
    subst hm
    simp [List.count_cons]
  | x :: v, s + 1, h, hm => by
    have ih := count_false_set v s (by simpa using h) (by simpa [mark] using hm)
    simp only [List.set_cons_succ, List.count_cons]
    omega

theorem count_false_pos (v : List Bool) (s : Nat) (hs : s < v.length) (hm : mark v s = false) :
    0 < v.count false := by
  have := count_false_set v s hs hm
  omega

/-- Total correctness of `BFS`: started on an unmarked vertex with a depth budget of at
least the number of unmarked vertices, the call returns and establishes `BFSPost`. -/
theorem BFS_spec (G : Graph) (hwf : G.WF) : ∀ (fuel : Nat) (v : List Bool) (start : Nat),
    v.length = G.size → start < G.size → mark v start = false → v.count false ≤ fuel →
    ∃ t, BFS G fuel v start = .ok t ∧ BFSPost G v start t := by
  intro fuel
  induction fuel with
  | zero =>
    intro v start hlen hstart hm hcount
    have := count_false_pos v start (by rw [hlen]; exact hstart) hm
    omega
  | succ fuel ih =>
    intro v start hlen hstart hm hcount
    have hs : start < v.length := by rw [hlen]; exact hstart
    have hc1 := count_false_set v start hs hm
    have hloop := foldlM_range_inv
      (fun visited i => do
        if ← G.atRead start i then
          if !(← readAt visited i) then BFS G fuel visited i else pure visited
        else pure visited)
      (fun k t => t.length = G.size ∧
        (∀ u, mark (v.set start true) u = true → mark t u = true) ∧
        (∀ u, mark t u = true → mark (v.set start true) u = false →
          (∀ w, w < G.size → G.adj u w = true → mark t w = true) ∧ G.Reach start u) ∧
        (∀ w, w < k → G.adj start w = true → mark t w = true))
      G.size (v.set start true)
      ⟨by simp [hlen], fun u hu => hu, fun u hu hnu => by simp [hu] at hnu,
        fun w hw => by omega⟩
      (by
        intro k t hk ⟨htlen, hmono, hnew, hdone⟩
        dsimp only
        rw [G.atRead_eq hwf start k hstart hk]
        simp only [run_ok_bind]
        by_cases hadj : G.adj start k = true
        · rw [readAt_eq_getD t k false (by rw [htlen]; exact hk)]
          simp only [run_ok_bind, hadj, if_true]
          by_cases hmk : mark t k = true
          · have hmk2 : t[k]?.getD false = true := hmk
            refine ⟨t, by simp [hmk2], htlen, hmono, hnew, ?_⟩
            intro w hw hadjw
            rcases Nat.lt_succ_iff_lt_or_eq.1 hw with hlt | heq
            · exact hdone w hlt hadjw
            · rw [heq]; exact hmk
          · have hmk2 : t[k]?.getD false = false := Bool.eq_false_iff.2 hmk
            have hcount2 : t.count false ≤ fuel := by
              have := count_false_mono (v.set start true) t (by simp [hlen, htlen]) hmono
              omega
            obtain ⟨t2, ht2, hlen2, hmono2, hstart2, hnew2⟩ :=
              ih t k htlen hk hmk2 hcount2
            refine ⟨t2, by simp [hmk2, ht2], hlen2, fun u hu => hmono2 u (hmono u hu), ?_, ?_⟩
            · intro u hu hnu
              by_cases htu : mark t u = true
              · obtain ⟨hclosed, hreach⟩ := hnew u htu hnu
                exact ⟨fun w hw hadjw => hmono2 w (hclosed w hw hadjw), hreach⟩
              · obtain ⟨hclosed, hreach⟩ := hnew2 u hu (Bool.eq_false_iff.2 htu)
                exact ⟨hclosed, Relation.ReflTransGen.head ⟨hstart, hk, hadj⟩ hreach⟩
            · intro w hw hadjw
              rcases Nat.lt_succ_iff_lt_or_eq.1 hw with hlt | heq
              · exact hmono2 w (hdone w hlt hadjw)
              · rw [heq]; exact hstart2
        · simp only [hadj]
          refine ⟨t, by simp, htlen, hmono, hnew, ?_⟩
          intro w hw hadjw
          rcases Nat.lt_succ_iff_lt_or_eq.1 hw with hlt | heq
          · exact hdone w hlt hadjw
          · rw [heq] at hadjw; exact absurd hadjw hadj)
    obtain ⟨t, ht, htlen, hmono, hnew, hdone⟩ := hloop
    refine ⟨t, ?_, htlen, ?_, ?_, ?_⟩
    · rw [BFS, writeAt_of_lt v start true hs]
      exact ht
    · intro u hu
      exact hmono u (by rw [mark_set v start u hs, hu]; simp)
    · exact hmono start (by rw [mark_set v start start hs]; simp)
    · intro u hu hnu
      by_cases hus : u = start
      · subst hus
        exact ⟨fun w hw hadjw => hdone w hw hadjw, Relation.ReflTransGen.refl⟩
      · exact hnew u hu (by rw [mark_set v start u hs, hnu]; simp [hus])

/-! ## Lemmas on bit masks -/

theorem and_shift_ne_zero (S j : Nat) : S &&& (1 <<< j) ≠ 0 ↔ S.testBit j = true := by
  rw [Nat.one_shiftLeft, Nat.and_two_pow]
  cases h : S.testBit j <;> simp [Nat.two_pow_pos]

theorem testBit_xor_pow (S i v : Nat) :
    (S ^^^ 2 ^ i).testBit v = (S.testBit v ^^ decide (i = v)) := by
  rw [Nat.testBit_xor, Nat.testBit_two_pow]

theorem xor_pow_lt (S i : Nat) (h : S.testBit i = true) : S ^^^ 2 ^ i < S := by
  apply Nat.lt_of_testBit i
  · simp [testBit_xor_pow, h]
  · exact h
  · intro j hj
    have hne : ¬ i = j := by omega
    simp [testBit_xor_pow, hne]

theorem xor_pow_lt_pow (S i n : Nat) (hS : S < 2 ^ n) (hi : i < n) : S ^^^ 2 ^ i < 2 ^ n :=
  Nat.xor_lt_two_pow hS (Nat.pow_lt_pow_right (by decide) hi)

theorem xor_pow_ne (S i : Nat) : S ^^^ 2 ^ i ≠ S := by
  intro h
  have := congrArg (fun x => x.testBit i) h
  simp [testBit_xor_pow] at this

theorem testBit_lt_of_lt_pow (S n i : Nat) (hS : S < 2 ^ n) (h : S.testBit i = true) :
    i < n := by
  by_contra hni
  have hle : 2 ^ n ≤ 2 ^ i := Nat.pow_le_pow_right (by decide) (Nat.le_of_not_lt hni)
  have := Nat.testBit_lt_two_pow (Nat.lt_of_lt_of_le hS hle)
  rw [this] at h
  cases h

/-! ## Lemmas on `isConnected` -/

theorem allM_readAt (t : List Bool) : ∀ l : List Nat, (∀ i ∈ l, i < t.length) →
    l.allM (fun i => readAt t i) = .ok (l.all fun i => mark t i) := by
  intro l
  induction l with
  | nil => intro _; rfl
  | cons i l ih =>
    intro hl
    have hi : i < t.length := hl i (List.mem_cons_self _ _)
    have hrest := ih (fun x hx => hl x (List.mem_cons_of_mem _ hx))
    rw [List.allM, readAt_eq_getD t i false hi]
    simp only [run_ok_bind, List.all_cons]
    cases hm : mark t i with
    | true =>
      have hm2 : t[i]?.getD false = true := hm
      simp only [hm2, Bool.true_and]
      exact hrest
    | false =>
      have hm2 : t[i]?.getD false = false := hm
      simp only [hm2, Bool.false_and]
      rfl

theorem mark_replicate (n u : Nat) : mark (List.replicate n false) u = false := by
  simp only [mark, List.getElem?_replicate]
  by_cases hu : u < n <;> simp [hu]

/-- With a budget of at least the vertex count, `isConnected` returns, and it returns
`true` exactly when every vertex is reachable from vertex 0. -/
theorem isConnected_spec (G : Graph) (hwf : G.WF) (hpos : 0 < G.size) (fuel : Nat)
    (hfuel : G.size ≤ fuel) :
    ∃ b, isConnected fuel G = .ok b ∧ (b = true ↔ ∀ u, u < G.size → G.Reach 0 u) := by
  obtain ⟨t, hrun, hlen, -, hzero, hnew⟩ := BFS_spec G hwf fuel (List.replicate G.size false) 0
    (by simp) hpos (mark_replicate _ _) (by simpa using hfuel)
  refine ⟨(List.range G.size).all fun i => mark t i, ?_, ?_⟩
  · unfold isConnected
    simp only [Graph.vertices]
    rw [hrun]
    simp only [run_ok_bind]
    exact allM_readAt t _ (fun i hi => by rw [hlen]; exact List.mem_range.1 hi)
  · have hclosed : ∀ u, G.Reach 0 u → mark t u = true := by
      intro u hu
      induction hu with
      | refl => exact hzero
      | tail _ hedge ih => exact (hnew _ ih (mark_replicate _ _)).1 _ hedge.2.1 hedge.2.2
    rw [List.all_eq_true]
    constructor
    · intro h u hu
      exact (hnew u (h u (List.mem_range.2 hu)) (mark_replicate _ _)).2
    · intro h u hu
      exact hclosed u (h u (List.mem_range.1 hu))

theorem chain_head_reach (G : Graph) : ∀ (l : List Nat) (e : Nat),
    (∀ v ∈ e :: l, v < G.size) → List.Chain' (fun a b => G.adj a b = true) (e :: l) →
    ∀ v ∈ e :: l, G.Reach e v := by
  intro l
  induction l with
  | nil =>
    intro e _ _ v hv
    have : v = e := by simpa using hv
    rw [this]
    exact Relation.ReflTransGen.refl
  | cons j rest ih =>
    intro e hlt hchain v hv
    rw [List.chain'_cons] at hchain
    rcases List.mem_cons.1 hv with rfl | hv2
    · exact Relation.ReflTransGen.refl
    · have hedge : G.Edge e j :=
        ⟨hlt e (List.mem_cons_self _ _),
          hlt j (List.mem_cons_of_mem _ (List.mem_cons_self _ _)), hchain.1⟩
      exact Relation.ReflTransGen.head hedge
        (ih j (fun x hx => hlt x (List.mem_cons_of_mem _ hx)) hchain.2 v hv2)

/-- In a graph with symmetric adjacency and a Hamiltonian path, every vertex is
reachable from vertex 0. -/
theorem reach_of_hamPath (G : Graph) (hsymm : G.Symm) (p : List Nat) (hp : G.HamPath p) :
    ∀ u, u < G.size → G.Reach 0 u := by
  intro u hu
  have hpos : 0 < G.size := by omega
  have hsym : Symmetric G.Edge := by
    intro a b hab
    exact ⟨hab.2.1, hab.1, by rw [hsymm]; exact hab.2.2⟩
  cases p with
  | nil =>
    have := hp.1.length_eq
    simp at this
    omega
  | cons e rest =>
    have hlt : ∀ v ∈ e :: rest, v < G.size := fun v hv => List.mem_range.1 (hp.1.mem_iff.1 hv)
    have h0 := chain_head_reach G rest e hlt hp.2 0 (hp.1.mem_iff.2 (List.mem_range.2 hpos))
    have h1 := chain_head_reach G rest e hlt hp.2 u (hp.1.mem_iff.2 (List.mem_range.2 hu))
    exact Relation.ReflTransGen.trans (Relation.ReflTransGen.symmetric hsym h0) h1

/-! ## Lemmas on the table `HAM` -/

theorem table_row_length (H : Table) (n : Nat) (h : TableWF H n) (S : Nat) (hS : S < 2 ^ n) :
    (H[S]?.getD []).length = n := by
  have hS2 : S < H.length := by rw [h.1]; exact hS
  rw [List.getElem?_eq_getElem hS2]
  exact h.2 _ (List.getElem_mem hS2)

theorem readHAM_eq (H : Table) (n : Nat) (h : TableWF H n) (S i : Nat) (hS : S < 2 ^ n)
    (hi : i < n) : readHAM H S i = .ok (cell H S i) := by
  have hS2 : S < H.length := by rw [h.1]; exact hS
  have hrow := table_row_length H n h S hS
  unfold readHAM cell
  rw [readAt_eq_getD H S [] hS2]
  simp only [run_ok_bind]
  exact readAt_eq_getD _ i (false, 0) (by rw [hrow]; exact hi)

theorem writeHAM_eq (H : Table) (n : Nat) (h : TableWF H n) (S i : Nat) (e : Entry)
    (hS : S < 2 ^ n) (hi : i < n) :
    ∃ H2, writeHAM H S i e = .ok H2 ∧ TableWF H2 n ∧
      ∀ S2 i2, cell H2 S2 i2 = if S2 = S ∧ i2 = i then e else cell H S2 i2 := by
  have hS2 : S < H.length := by rw [h.1]; exact hS
  have hrow := table_row_length H n h S hS
  refine ⟨H.set S ((H[S]?.getD []).set i e), ?_, ?_, ?_⟩
  · unfold writeHAM
    rw [readAt_eq_getD H S [] hS2]
    simp only [run_ok_bind]
    rw [writeAt_of_lt _ i e (by rw [hrow]; exact hi)]
    simp only [run_ok_bind]
    exact writeAt_of_lt _ S _ hS2
  · constructor
    · simp [h.1]
    · intro row hrow2
      rcases List.mem_or_eq_of_mem_set hrow2 with hmem | heq
      · exact h.2 row hmem
      · simp [heq, hrow]
  · intro a b
    simp only [cell, List.getElem?_set]
    by_cases haS : a = S
    · subst haS
      by_cases hbi : b = i
      · subst hbi
        have hlen : (H[a]).length = n := h.2 _ (List.getElem_mem hS2)
        simp [hS2, hlen, hi]
      · have hib : ¬ i = b := fun e => hbi e.symm
        simp [hS2, hbi, hib]
    · have hSa : ¬ S = a := fun e => haS e.symm
      simp [haS, hSa]

theorem table_new_wf (n : Nat) :
    TableWF (List.replicate (2 ^ n) (List.replicate n ((false, 0) : Entry))) n := by
  constructor
  · simp
  · intro row hrow
    rw [(List.mem_replicate.1 hrow).2]
    simp

theorem table_new_cell (n S i : Nat) :
    cell (List.replicate (2 ^ n) (List.replicate n ((false, 0) : Entry))) S i = (false, 0) := by
  simp only [cell, List.getElem?_replicate]
  by_cases hS : S < 2 ^ n
  · by_cases hi : i < n <;> simp [hS, hi]
  · simp [hS]

/-- After lines 87-89 the cell `HAM[S][i]` is `(true, 0)` when `S = {i}` and `(false, 0)`
otherwise. -/
theorem initSingletons_spec (n : Nat) :
    ∃ H, initSingletons n (List.replicate (2 ^ n) (List.replicate n ((false, 0) : Entry))) =
        .ok H ∧ TableWF H n ∧
      ∀ S i, cell H S i = (decide (i < n ∧ S = 2 ^ i), 0) := by
  have hloop := foldlM_range_inv
    (fun HAM i => do
      let e ← readHAM HAM (1 <<< i) i
      writeHAM HAM (1 <<< i) i (true, e.2))
    (fun k H => TableWF H n ∧ ∀ S i, cell H S i = (decide (i < k ∧ S = 2 ^ i), 0))
    n (List.replicate (2 ^ n) (List.replicate n ((false, 0) : Entry)))
    ⟨table_new_wf n, fun S i => by simp [table_new_cell]⟩
    (by
      intro k H hk ⟨hwf, hcell⟩
      have hpow : 2 ^ k < 2 ^ n := Nat.pow_lt_pow_right (by decide) hk
      dsimp only
      rw [Nat.one_shiftLeft, readHAM_eq H n hwf _ k hpow hk]
      simp only [run_ok_bind]
      obtain ⟨H2, hH2, hwf2, hcell2⟩ := writeHAM_eq H n hwf (2 ^ k) k (true, (cell H (2 ^ k) k).2)
        hpow hk
      refine ⟨H2, hH2, hwf2, ?_⟩
      intro S i
      rw [hcell2, hcell, hcell]
      by_cases hik : i = k
      · subst hik
        by_cases hS : S = 2 ^ i
        · simp [hS]
        · simp [hS]
      · have hlt : i < k + 1 ↔ i < k := by omega
        simp [hik, hlt])
  exact hloop

/-- The condition of line 97 is evaluated without a fault. -/
theorem fillCond_eq (G : Graph) (hwf : G.WF) (H : Table) (hH : TableWF H G.size) (S i j : Nat)
    (hS : S < 2 ^ G.size) (hi : i < G.size) (hj : j < G.size) :
    fillCond G H S i j = .ok (fillValue G H S i j) := by
  unfold fillCond fillValue
  by_cases hbit : S.testBit j = true
  · have hcond : S &&& (1 <<< j) ≠ 0 := (and_shift_ne_zero S j).2 hbit
    rw [if_pos hcond, G.atRead_eq hwf i j hi hj]
    simp only [run_ok_bind]
    by_cases hadj : G.adj i j = true
    · by_cases hij : i = j
      · simp [hadj, hij]
      · rw [Nat.one_shiftLeft, readHAM_eq H G.size hH _ j (xor_pow_lt_pow S i G.size hS hi) hj]
        simp [hadj, hij, hbit]
    · simp [hadj]
  · have hcond : ¬ (S &&& (1 <<< j) ≠ 0) := fun h => hbit ((and_shift_ne_zero S j).1 h)
    rw [if_neg hcond]
    simp [hbit]

/-- The loop over `j` either finds no `j` and leaves the table as it is, or writes
`(true, j)` into `HAM[S][i]` for a `j` that passes the condition. -/
theorem fillLoop_spec (G : Graph) (hwf : G.WF) (H : Table) (hH : TableWF H G.size) (S i : Nat)
    (hS : S < 2 ^ G.size) (hi : i < G.size) : ∀ js : List Nat, (∀ j ∈ js, j < G.size) →
    ∃ H2, fillLoop G S i js H = .ok H2 ∧ TableWF H2 G.size ∧
      (((∀ j ∈ js, fillValue G H S i j = false) ∧ H2 = H) ∨
        ∃ j ∈ js, fillValue G H S i j = true ∧
          ∀ S2 i2, cell H2 S2 i2 = if S2 = S ∧ i2 = i then (true, j) else cell H S2 i2) := by
  intro js
  induction js with
  | nil =>
    intro _
    exact ⟨H, rfl, hH, Or.inl ⟨by simp, rfl⟩⟩
  | cons j js ih =>
    intro hjs
    have hj : j < G.size := hjs j (List.mem_cons_self _ _)
    rw [fillLoop, fillCond_eq G hwf H hH S i j hS hi hj]
    by_cases hval : fillValue G H S i j = true
    · obtain ⟨H2, hH2, hwf2, hcell2⟩ := writeHAM_eq H G.size hH S i (true, j) hS hi
      refine ⟨H2, by simp [hval, hH2], hwf2, Or.inr ⟨j, List.mem_cons_self _ _, hval, hcell2⟩⟩
    · obtain ⟨H2, hH2, hwf2, hres⟩ := ih (fun x hx => hjs x (List.mem_cons_of_mem _ hx))
      refine ⟨H2, by simp [hval, hH2], hwf2, ?_⟩
      rcases hres with ⟨hnone, heq⟩ | ⟨x, hx, hxval, hcell⟩
      · left
        refine ⟨?_, heq⟩
        intro x hx
        rcases List.mem_cons.1 hx with rfl | hx2
        · exact Bool.eq_false_iff.2 hval
        · exact hnone x hx2
      · right
        exact ⟨x, List.mem_cons_of_mem _ hx, hxval, hcell⟩

theorem CellFinal_congr (G : Graph) (H H2 : Table) (S i : Nat)
    (h1 : cell H2 S i = cell H S i)
    (h2 : S.testBit i = true → ∀ j, cell H2 (S ^^^ 2 ^ i) j = cell H (S ^^^ 2 ^ i) j)
    (h : CellFinal G H S i) : CellFinal G H2 S i := by
  by_cases hbit : S.testBit i = true
  · unfold CellFinal
    rw [h1]
    simp only [h2 hbit]
    exact h
  · have hfalse : (cell H S i).1 = false := by
      apply Bool.eq_false_iff.2
      intro htrue
      exact hbit (h.1.1 htrue).1
    unfold CellFinal
    rw [h1, hfalse]
    simp [hbit]

/-- One iteration of the loop over `i` (lines 91-103) for the row `K`: the cell
`HAM[K][k]` becomes final, and no other cell changes. -/
theorem fillCell_spec (G : Graph) (hwf : G.WF) (H0 H : Table) (K k : Nat)
    (hK : K < 2 ^ G.size) (hk : k < G.size)
    (hinit : ∀ i, cell H0 K i = (decide (i < G.size ∧ K = 2 ^ i), 0))
    (hH : TableWF H G.size)
    (hother : ∀ S i, S ≠ K → cell H S i = cell H0 S i)
    (hlater : ∀ i, k ≤ i → cell H K i = cell H0 K i)
    (hdone : ∀ i, i < k → CellFinal G H K i) :
    ∃ H2, fillCell G K H k = .ok H2 ∧ TableWF H2 G.size ∧
      (∀ S i, S ≠ K → cell H2 S i = cell H0 S i) ∧
      (∀ i, k + 1 ≤ i → cell H2 K i = cell H0 K i) ∧
      (∀ i, i < k + 1 → CellFinal G H2 K i) := by
  have hcellk : cell H K k = (decide (K = 2 ^ k), 0) := by
    rw [hlater k (Nat.le_refl k), hinit]
    simp [hk]
  unfold fillCell
  by_cases hbit : K.testBit k = true
  · rw [if_pos ((and_shift_ne_zero K k).2 hbit)]
    obtain ⟨H2, hH2, hwf2, hres⟩ := fillLoop_spec G hwf H hH K k hK hk
      (List.range G.vertices) (fun j hj => List.mem_range.1 hj)
    refine ⟨H2, hH2, hwf2, ?_⟩
    rcases hres with ⟨hnone, heq⟩ | ⟨j, hj, hval, hcell⟩
    · subst heq
      refine ⟨hother, fun i hi => hlater i (by omega), ?_⟩
      intro i hi
      rcases Nat.lt_succ_iff_lt_or_eq.1 hi with hlt | heq
      · exact hdone i hlt
      · subst heq
        unfold CellFinal
        rw [hcellk]
        constructor
        · constructor
          · intro h
            exact ⟨hbit, Or.inl (by simpa using h)⟩
          · rintro ⟨-, h | ⟨j, hj, hji, hbj, hadj, hprev⟩⟩
            · simpa using h
            · have := hnone j (List.mem_range.2 hj)
              have hij : ¬ i = j := fun e => hji e.symm
              simp [fillValue, hbj, hadj, hij, hprev] at this
        · intro h hne
          exact absurd (by simpa using h) hne
    · have hjn : j < G.size := List.mem_range.1 hj
      simp only [fillValue, Bool.and_eq_true, decide_eq_true_eq] at hval
      obtain ⟨⟨⟨hbj, hadj⟩, hkj⟩, hprev⟩ := hval
      have hrow : ∀ i, cell H2 (K ^^^ 2 ^ k) i = cell H (K ^^^ 2 ^ k) i := by
        intro i
        rw [hcell]
        simp [xor_pow_ne K k]
      refine ⟨?_, ?_, ?_⟩
      · intro S i hS
        rw [hcell, ← hother S i hS]
        simp [hS]
      · intro i hi
        rw [hcell, ← hlater i (by omega)]
        have : ¬ i = k := by omega
        simp [this]
      · intro i hi
        rcases Nat.lt_succ_iff_lt_or_eq.1 hi with hlt | heq
        · apply CellFinal_congr G H H2 K i _ _ (hdone i hlt)
          · rw [hcell]
            have : ¬ i = k := by omega
            simp [this]
          · intro _ x
            rw [hcell]
            simp [xor_pow_ne K i]
        · subst heq
          have hself : cell H2 K i = (true, j) := by rw [hcell]; simp
          unfold CellFinal
          rw [hself]
          refine ⟨⟨fun _ => ⟨hbit, Or.inr ⟨j, hjn, fun e => hkj e.symm, hbj, hadj, ?_⟩⟩,
            fun _ => rfl⟩, fun _ _ => ⟨hjn, fun e => hkj e.symm, hbj, hadj, ?_⟩⟩
          · rw [hrow]; exact hprev
          · rw [hrow]; exact hprev
  · rw [if_neg (fun h => hbit ((and_shift_ne_zero K k).1 h))]
    refine ⟨H, rfl, hH, hother, fun i hi => hlater i (by omega), ?_⟩
    intro i hi
    rcases Nat.lt_succ_iff_lt_or_eq.1 hi with hlt | heq
    · exact hdone i hlt
    · subst heq
      have hne : ¬ K = 2 ^ i := by
        intro e
        rw [e] at hbit
        exact hbit Nat.testBit_two_pow_self
      unfold CellFinal
      rw [hcellk]
      simp [hne, hbit]

/-- The loop over `i` for the row `K` (lines 91-103): the rows below `K` stay final,
the row `K` becomes final, the rows above `K` keep their initial content. -/
theorem fillRow_spec (G : Graph) (hwf : G.WF) (H0 : Table) (K : Nat) (hK : K < 2 ^ G.size)
    (hH0 : TableWF H0 G.size)
    (hinit : ∀ S i, K ≤ S → cell H0 S i = (decide (i < G.size ∧ S = 2 ^ i), 0))
    (hfinal : ∀ S i, S < K → i < G.size → CellFinal G H0 S i) :
    ∃ H, (List.range G.vertices).foldlM (fillCell G K) H0 = .ok H ∧ TableWF H G.size ∧
      (∀ S i, K + 1 ≤ S → cell H S i = (decide (i < G.size ∧ S = 2 ^ i), 0)) ∧
      (∀ S i, S < K + 1 → i < G.size → CellFinal G H S i) := by
  have hloop := foldlM_range_inv (fillCell G K)
    (fun k H => TableWF H G.size ∧
      (∀ S i, S ≠ K → cell H S i = cell H0 S i) ∧
      (∀ i, k ≤ i → cell H K i = cell H0 K i) ∧
      (∀ i, i < k → CellFinal G H K i))
    G.size H0 ⟨hH0, fun _ _ _ => rfl, fun _ _ => rfl, fun i hi => by omega⟩
    (by
      intro k H hk ⟨hH, hother, hlater, hdone⟩
      exact fillCell_spec G hwf H0 H K k hK hk (fun i => hinit K i (Nat.le_refl K)) hH hother
        hlater hdone)
  obtain ⟨H, hrun, hH, hother, -, hdone⟩ := hloop
  refine ⟨H, hrun, hH, ?_, ?_⟩
  · intro S i hS
    rw [hother S i (by omega)]
    exact hinit S i (by omega)
  · intro S i hS hi
    rcases Nat.lt_succ_iff_lt_or_eq.1 hS with hlt | heq
    · apply CellFinal_congr G H0 H S i (hother S i (by omega)) _ (hfinal S i hlt hi)
      intro hbit j
      have := xor_pow_lt S i hbit
      exact hother _ j (by omega)
    · subst heq
      exact hdone i hi

/-- The fill loops (lines 90-104) run without a fault and leave the table `Filled`. -/
theorem fillTable_spec (G : Graph) (hwf : G.WF) (H0 : Table) (hH0 : TableWF H0 G.size)
    (hinit : ∀ S i, cell H0 S i = (decide (i < G.size ∧ S = 2 ^ i), 0)) :
    ∃ H, fillTable G (2 ^ G.size) H0 = .ok H ∧ Filled G H := by
  have hloop := foldlM_range_inv
    (fun HAM S => (List.range G.vertices).foldlM (fillCell G S) HAM)
    (fun K H => TableWF H G.size ∧
      (∀ S i, K ≤ S → cell H S i = (decide (i < G.size ∧ S = 2 ^ i), 0)) ∧
      (∀ S i, S < K → i < G.size → CellFinal G H S i))
    (2 ^ G.size) H0 ⟨hH0, fun S i _ => hinit S i, fun S i hS => by omega⟩
    (by
      intro K H hK ⟨hH, hini, hfin⟩
      exact fillRow_spec G hwf H K hK hH hini hfin)
  obtain ⟨H, hrun, hH, -, hfin⟩ := hloop
  exact ⟨H, hrun, hH, fun S i hS hi => hfin S i hS hi⟩

/-! ## Lemmas on the backtracking loop -/

theorem countP_range_flip (p q : Nat → Bool) (i : Nat) (hp : p i = true) (hq : q i = false)
    (hsame : ∀ v, v ≠ i → q v = p v) : ∀ n, i < n →
    (List.range n).countP q + 1 = (List.range n).countP p := by
  intro n
  induction n with
  | zero => intro h; omega
  | succ n ih =>
    intro hi
    rw [List.range_succ, List.countP_append, List.countP_append]
    rcases Nat.lt_succ_iff_lt_or_eq.1 hi with hlt | heq
    · have := ih hlt
      have hn : q n = p n := hsame n (by omega)
      simp only [List.countP_cons, List.countP_nil, hn]
      omega
    · subst heq
      have hcongr : (List.range i).countP q = (List.range i).countP p := by
        apply List.countP_congr
        intro v hv
        have hvi : v ≠ i := by
          have := List.mem_range.1 hv
          omega
        rw [hsame v hvi]
      simp [List.countP_cons, hp, hq, hcongr]

theorem card_xor (n S i : Nat) (hi : i < n) (hbit : S.testBit i = true) :
    card n (S ^^^ 2 ^ i) + 1 = card n S := by
  unfold card
  apply countP_range_flip _ _ i hbit _ _ n hi
  · simp [testBit_xor_pow, hbit]
  · intro v hv
    have : ¬ i = v := fun e => hv e.symm
    simp [testBit_xor_pow, this]

theorem scanRow_found (row : List Entry) : ∀ (k i : Nat),
    (∃ e, i ≤ e ∧ e < i + k ∧ e < row.length ∧ (row[e]?.getD (false, 0)).1 = true) →
    ∃ e, scanRow (row.drop i) i = .ok e ∧ i ≤ e ∧ e < row.length ∧
      (row[e]?.getD (false, 0)).1 = true ∧
      ∀ x, i ≤ x → x < e → (row[x]?.getD (false, 0)).1 = false := by
  intro k
  induction k with
  | zero =>
    rintro i ⟨e, h1, h2, -, -⟩
    omega
  | succ k ih =>
    rintro i ⟨e, hie, hek, helen, hetrue⟩
    have hi : i < row.length := by omega
    rw [List.drop_eq_getElem_cons hi, scanRow]
    by_cases hfi : (row[i]).1 = true
    · refine ⟨i, by simp [hfi], Nat.le_refl i, hi, ?_, fun x h1 h2 => by omega⟩
      rw [List.getElem?_eq_getElem hi]
      exact hfi
    · have hne : e ≠ i := by
        intro heq
        subst heq
        rw [List.getElem?_eq_getElem hi] at hetrue
        exact hfi hetrue
      obtain ⟨e2, hrun, h1, h2, h3, h4⟩ := ih (i + 1) ⟨e, by omega, by omega, helen, hetrue⟩
      refine ⟨e2, by simp [hfi, hrun], by omega, h2, h3, ?_⟩
      intro x hx1 hx2
      by_cases hxi : x = i
      · subst hxi
        rw [List.getElem?_eq_getElem hi]
        exact Bool.eq_false_iff.2 hfi
      · exact h4 x (by omega) hx2

theorem scanRow_none (row : List Entry) : ∀ (k i : Nat), row.length ≤ i + k →
    (∀ x, i ≤ x → x < row.length → (row[x]?.getD (false, 0)).1 = false) →
    scanRow (row.drop i) i = .error Fault.outOfRange := by
  intro k
  induction k with
  | zero =>
    intro i hlen _
    rw [List.drop_eq_nil_of_le (by omega)]
    rfl
  | succ k ih =>
    intro i hlen hall
    by_cases hi : i < row.length
    · have hfi := hall i (Nat.le_refl i) hi
      rw [List.getElem?_eq_getElem hi] at hfi
      rw [List.drop_eq_getElem_cons hi, scanRow]
      simp only [Option.getD_some] at hfi
      simp only [hfi, Bool.not_false, if_true]
      exact ih (i + 1) (by omega) (fun x hx1 hx2 => hall x (by omega) hx2)
    · rw [List.drop_eq_nil_of_le (by omega)]
      rfl

/-- Line 110 stops at the first cell at or after `i` whose `first` is set, when the row
has such a cell. -/
theorem findEndpoint_found (H : Table) (n : Nat) (hH : TableWF H n) (S i : Nat) (hS : S < 2 ^ n)
    (hex : ∃ e, i ≤ e ∧ e < n ∧ (cell H S e).1 = true) :
    ∃ e, findEndpoint H S i = .ok e ∧ i ≤ e ∧ e < n ∧ (cell H S e).1 = true ∧
      ∀ x, i ≤ x → x < e → (cell H S x).1 = false := by
  have hS2 : S < H.length := by rw [hH.1]; exact hS
  have hrow := table_row_length H n hH S hS
  obtain ⟨e, hie, hen, he⟩ := hex
  obtain ⟨e2, hrun, h1, h2, h3, h4⟩ := scanRow_found (H[S]?.getD []) n i
    ⟨e, hie, by omega, by rw [hrow]; exact hen, he⟩
  refine ⟨e2, ?_, h1, by rw [← hrow]; exact h2, h3, h4⟩
  unfold findEndpoint
  rw [readAt_eq_getD H S [] hS2]
  exact hrun

/-- Line 110 reads past the end of the row when no cell at or after `i` has `first`
set. -/
theorem findEndpoint_none (H : Table) (n : Nat) (hH : TableWF H n) (S i : Nat) (hS : S < 2 ^ n)
    (hno : ∀ x, i ≤ x → x < n → (cell H S x).1 = false) :
    findEndpoint H S i = .error Fault.outOfRange := by
  have hS2 : S < H.length := by rw [hH.1]; exact hS
  have hrow := table_row_length H n hH S hS
  unfold findEndpoint
  rw [readAt_eq_getD H S [] hS2]
  exact scanRow_none (H[S]?.getD []) n i (by omega)
    (fun x hx1 hx2 => hno x hx1 (by rw [← hrow]; exact hx2))

theorem backtrack_zero (H : Table) (n fuel i : Nat) (order : List Nat) :
    backtrack H n fuel 0 i order = .ok order := by
  cases fuel <;> simp [backtrack]

/-- Total correctness of the backtracking loop on a filled table: entered at a subset
`S` whose row has `first` set at or after column `i`, with a budget of at least the
number of vertices in `S`, it appends to `order` a path over `S` that starts at the
first such column. -/
theorem backtrack_spec (G : Graph) (H : Table) (hfill : Filled G H) : ∀ (fuel S i : Nat)
    (order : List Nat), S < 2 ^ G.size →
    (∃ e, i ≤ e ∧ e < G.size ∧ (cell H S e).1 = true) → card G.size S ≤ fuel →
    ∃ e path, backtrack H G.size fuel S i order = .ok (order ++ e :: path) ∧
      PathOver G S (e :: path) ∧ i ≤ e ∧ (cell H S e).1 = true ∧
      ∀ x, i ≤ x → x < e → (cell H S x).1 = false := by
  intro fuel
  induction fuel with
  | zero =>
    rintro S i order hS ⟨e, hie, hen, he⟩ hcard
    have hbit := ((hfill.2 S e hS hen).1.1 he).1
    have := card_xor G.size S e hen hbit
    omega
  | succ fuel ih =>
    intro S i order hS hex hcard
    obtain ⟨e, hrun, hie, hen, he, hleast⟩ := findEndpoint_found H G.size hfill.1 S i hS hex
    have hfinal := hfill.2 S e hS hen
    have hbit := (hfinal.1.1 he).1
    have hSpos : S > 0 := by
      rcases Nat.eq_zero_or_pos S with h0 | hpos
      · rw [h0, Nat.zero_testBit] at hbit
        cases hbit
      · exact hpos
    have hguard : S > 0 ∧ i < G.size := ⟨hSpos, by omega⟩
    have hstep : backtrack H G.size (fuel + 1) S i order =
        backtrack H G.size fuel (S ^^^ 2 ^ e) (cell H S e).2 (order ++ [e]) := by
      rw [backtrack, if_pos hguard, hrun]
      simp only [run_ok_bind]
      rw [readHAM_eq H G.size hfill.1 S e hS hen, Nat.one_shiftLeft]
      rfl
    by_cases hsingle : S = 2 ^ e
    · refine ⟨e, [], ?_, ⟨by simp, ?_, by simp⟩, hie, he, hleast⟩
      · rw [hstep, hsingle, Nat.xor_self, backtrack_zero]
      · intro v
        rw [hsingle, Nat.testBit_two_pow]
        constructor
        · intro hv
          have : v = e := by simpa using hv
          subst this
          exact ⟨hen, by simp⟩
        · rintro ⟨-, hv⟩
          have : e = v := by simpa using hv
          simp [this]
    · obtain ⟨hjn, hje, hbj, hadj, hprev⟩ := hfinal.2 he hsingle
      have hcard2 : card G.size (S ^^^ 2 ^ e) ≤ fuel := by
        have := card_xor G.size S e hen hbit
        omega
      obtain ⟨e2, path, hrun2, hpath, h1, h2, h3⟩ :=
        ih (S ^^^ 2 ^ e) (cell H S e).2 (order ++ [e]) (xor_pow_lt_pow S e G.size hS hen)
          ⟨(cell H S e).2, Nat.le_refl _, hjn, hprev⟩ hcard2
      have he2 : e2 = (cell H S e).2 := by
        rcases Nat.lt_or_ge (cell H S e).2 e2 with hlt | hge
        · have := h3 _ (Nat.le_refl _) hlt
          rw [this] at hprev
          cases hprev
        · omega
      refine ⟨e, e2 :: path, ?_, ⟨?_, ?_, ?_⟩, hie, he, hleast⟩
      · rw [hstep, hrun2]
        simp
      · rw [List.nodup_cons]
        refine ⟨?_, hpath.1⟩
        intro hmem
        have := ((hpath.2.1 e).1 hmem).2
        simp [testBit_xor_pow, hbit] at this
      · intro v
        rw [List.mem_cons, hpath.2.1 v, testBit_xor_pow]
        by_cases hve : v = e
        · subst hve
          simp [hen, hbit]
        · have : ¬ e = v := fun h => hve h.symm
          simp [hve, this]
      · rw [List.chain'_cons]
        refine ⟨?_, hpath.2.2⟩
        rw [he2]
        exact hadj

theorem backtrack_mono (H : Table) (n : Nat) : ∀ (fuel S i : Nat) (order r : List Nat),
    backtrack H n fuel S i order = .ok r → backtrack H n (fuel + 1) S i order = .ok r := by
  intro fuel
  induction fuel with
  | zero =>
    intro S i order r h
    by_cases hguard : S > 0 ∧ i < n
    · simp [backtrack, hguard] at h
    · simp only [backtrack, hguard, if_false] at h ⊢
      exact h
  | succ fuel ih =>
    intro S i order r h
    by_cases hguard : S > 0 ∧ i < n
    · rw [backtrack, if_pos hguard] at h ⊢
      cases hfind : findEndpoint H S i with
      | error e => rw [hfind] at h; cases h
      | ok e =>
        rw [hfind] at h
        simp only [run_ok_bind] at h ⊢
        cases hread : readHAM H S e with
        | error e2 => rw [hread] at h; cases h
        | ok entry =>
          rw [hread] at h
          simp only [run_ok_bind] at h ⊢
          exact ih _ _ _ _ h
    · rw [backtrack, if_neg hguard] at h ⊢
      exact h

theorem backtrack_mono_le (H : Table) (n fuel S i : Nat) (order r : List Nat)
    (h : backtrack H n fuel S i order = .ok r) : ∀ k, backtrack H n (fuel + k) S i order = .ok r := by
  intro k
  induction k with
  | zero => exact h
  | succ k ih => exact backtrack_mono H n (fuel + k) S i order r ih

theorem card_le (n S : Nat) : card n S ≤ n := by
  unfold card
  have := List.countP_le_length (fun i => S.testBit i) (l := List.range n)
  simpa using this

/-! ## Lemmas on `findHamiltonianPath` -/

/-- With at most 30 vertices the allocation and the fill loops run without a fault, and
`findHamiltonianPath` is the backtracking loop on a filled table. -/
theorem findHamiltonianPath_eq (G : Graph) (hwf : G.WF) (hn : G.size ≤ 30) :
    ∃ H, Filled G H ∧
      ∀ fuel, findHamiltonianPath fuel G = backtrack H G.size fuel (2 ^ G.size - 1) 0 [] := by
  obtain ⟨H0, hrun0, hwf0, hcell0⟩ := initSingletons_spec G.size
  obtain ⟨H, hrun, hfill⟩ := fillTable_spec G hwf H0 hwf0 hcell0
  refine ⟨H, hfill, ?_⟩
  intro fuel
  unfold findHamiltonianPath shiftOne
  simp only [Graph.vertices, hn, if_true, run_pure, run_ok_bind, Nat.one_shiftLeft]
  rw [hrun0]
  simp only [run_ok_bind]
  rw [hrun]
  rfl

/-- With more than 30 vertices `1 << G.vertices()` overflows. -/
theorem findHamiltonianPath_overflow (G : Graph) (fuel : Nat) (hn : 30 < G.size) :
    findHamiltonianPath fuel G = .error Fault.overflow := by
  unfold findHamiltonianPath shiftOne
  have : ¬ G.vertices ≤ 30 := by simp [Graph.vertices]; omega
  simp [this]

theorem testBit_maskOf (path : List Nat) (v : Nat) :
    (maskOf path).testBit v = decide (v ∈ path) := by
  induction path with
  | nil => simp [maskOf]
  | cons x xs ih =>
    have hcons : maskOf (x :: xs) = 2 ^ x ||| maskOf xs := rfl
    rw [hcons, Nat.testBit_or, ih, Nat.testBit_two_pow]
    by_cases hxv : x = v
    · simp [hxv]
    · have : ¬ v = x := fun e => hxv e.symm
      simp [hxv, this]

theorem maskOf_lt (path : List Nat) (n : Nat) (h : ∀ v ∈ path, v < n) : maskOf path < 2 ^ n := by
  apply Nat.lt_pow_two_of_testBit
  intro i hi
  rw [testBit_maskOf]
  simp only [decide_eq_false_iff_not]
  intro hmem
  have := h i hmem
  omega

theorem maskOf_cons_xor (e : Nat) (path : List Nat) (h : e ∉ path) :
    maskOf (e :: path) ^^^ 2 ^ e = maskOf path := by
  apply Nat.eq_of_testBit_eq
  intro v
  rw [testBit_xor_pow, testBit_maskOf, testBit_maskOf]
  by_cases hve : v = e
  · subst hve
    simp [h]
  · have : ¬ e = v := fun x => hve x.symm
    simp [hve, this]

theorem maskOf_full (path : List Nat) (n : Nat) (h : path.Perm (List.range n)) :
    maskOf path = 2 ^ n - 1 := by
  apply Nat.eq_of_testBit_eq
  intro v
  rw [testBit_maskOf, Nat.testBit_two_pow_sub_one]
  have : v ∈ path ↔ v < n := by rw [h.mem_iff, List.mem_range]
  simp [this]

/-- Completeness of the fill: for every path of the graph, the cell of its vertex set
and its first vertex has `first` set. -/
theorem filled_complete (G : Graph) (H : Table) (hfill : Filled G H) : ∀ (path : List Nat)
    (e : Nat), (e :: path).Nodup → (∀ v ∈ e :: path, v < G.size) →
    List.Chain' (fun a b => G.adj a b = true) (e :: path) →
    (cell H (maskOf (e :: path)) e).1 = true := by
  intro path
  induction path with
  | nil =>
    intro e _ hlt _
    have hen : e < G.size := hlt e (List.mem_cons_self _ _)
    have hmask : maskOf [e] = 2 ^ e := by simp [maskOf]
    rw [hmask]
    have hfinal := hfill.2 (2 ^ e) e (Nat.pow_lt_pow_right (by decide) hen) hen
    exact hfinal.1.2 ⟨Nat.testBit_two_pow_self, Or.inl rfl⟩
  | cons j rest ih =>
    intro e hnodup hlt hchain
    have hen : e < G.size := hlt e (List.mem_cons_self _ _)
    have hjn : j < G.size := hlt j (List.mem_cons_of_mem _ (List.mem_cons_self _ _))
    rw [List.nodup_cons] at hnodup
    rw [List.chain'_cons] at hchain
    have hprev := ih j hnodup.2 (fun v hv => hlt v (List.mem_cons_of_mem _ hv)) hchain.2
    have hfinal := hfill.2 (maskOf (e :: j :: rest)) e (maskOf_lt _ _ hlt) hen
    apply hfinal.1.2
    refine ⟨by simp [testBit_maskOf], Or.inr ⟨j, hjn, ?_, by simp [testBit_maskOf], hchain.1, ?_⟩⟩
    · intro hje
      apply hnodup.1
      rw [hje]
      exact List.mem_cons_self _ _
    · rw [maskOf_cons_xor e (j :: rest) hnodup.1]
      exact hprev

theorem pathOver_full (G : Graph) (path : List Nat) :
    PathOver G (2 ^ G.size - 1) path ↔ G.HamPath path := by
  unfold PathOver Graph.HamPath
  constructor
  · rintro ⟨hnodup, hmem, hchain⟩
    refine ⟨?_, hchain⟩
    rw [List.perm_ext_iff_of_nodup hnodup (List.nodup_range _)]
    intro v
    rw [hmem v, List.mem_range, Nat.testBit_two_pow_sub_one]
    simp
  · rintro ⟨hperm, hchain⟩
    refine ⟨hperm.nodup_iff.2 (List.nodup_range _), ?_, hchain⟩
    intro v
    rw [hperm.mem_iff, List.mem_range, Nat.testBit_two_pow_sub_one]
    simp

/-- On a graph with a Hamiltonian path and at most 30 vertices, `findHamiltonianPath`
returns a Hamiltonian path when the budget covers the vertex count. -/
theorem findHamiltonianPath_complete (G : Graph) (hwf : G.WF) (hn : G.size ≤ 30)
    (fuel : Nat) (hfuel : G.size ≤ fuel) (p : List Nat) (hp : G.HamPath p) (hpos : 0 < G.size) :
    ∃ order, findHamiltonianPath fuel G = .ok order ∧ G.HamPath order ∧ order ≠ [] := by
  obtain ⟨H, hfill, heq⟩ := findHamiltonianPath_eq G hwf hn
  cases p with
  | nil =>
    have := hp.1.length_eq
    simp at this
    omega
  | cons e rest =>
    have hlt : ∀ v ∈ e :: rest, v < G.size := fun v hv => List.mem_range.1 (hp.1.mem_iff.1 hv)
    have hcell := filled_complete G H hfill rest e (hp.1.nodup_iff.2 (List.nodup_range _)) hlt hp.2
    rw [maskOf_full _ _ hp.1] at hcell
    have hfull : 2 ^ G.size - 1 < 2 ^ G.size := by
      have := Nat.two_pow_pos G.size
      omega
    obtain ⟨e2, path, hrun, hpath, -, -, -⟩ := backtrack_spec G H hfill fuel (2 ^ G.size - 1) 0 []
      hfull ⟨e, Nat.zero_le _, hlt e (List.mem_cons_self _ _), hcell⟩
      (Nat.le_trans (card_le _ _) hfuel)
    refine ⟨e2 :: path, ?_, (pathOver_full G _).1 hpath, by simp⟩
    rw [heq, hrun]
    rfl

/-- Whatever the budget, a non-empty order returned by `findHamiltonianPath` on a graph
with at most 30 vertices is a Hamiltonian path. -/
theorem findHamiltonianPath_sound (G : Graph) (hwf : G.WF) (hn : G.size ≤ 30) (fuel : Nat)
    (order : List Nat) (h : findHamiltonianPath fuel G = .ok order) (hne : order ≠ []) :
    G.HamPath order := by
  obtain ⟨H, hfill, heq⟩ := findHamiltonianPath_eq G hwf hn
  rw [heq] at h
  have hfull : 2 ^ G.size - 1 < 2 ^ G.size := by
    have := Nat.two_pow_pos G.size
    omega
  by_cases hguard : 2 ^ G.size - 1 > 0 ∧ 0 < G.size
  · by_cases hex : ∃ e, 0 ≤ e ∧ e < G.size ∧ (cell H (2 ^ G.size - 1) e).1 = true
    · obtain ⟨e2, path, hrun, hpath, -, -, -⟩ := backtrack_spec G H hfill G.size
        (2 ^ G.size - 1) 0 [] hfull hex (card_le _ _)
      have h1 := backtrack_mono_le H G.size fuel _ _ _ _ h G.size
      have h2 := backtrack_mono_le H G.size G.size _ _ _ _ hrun fuel
      rw [Nat.add_comm] at h2
      rw [h1] at h2
      have : order = e2 :: path := by simpa using h2
      rw [this]
      exact (pathOver_full G _).1 hpath
    · have hnone := findEndpoint_none H G.size hfill.1 (2 ^ G.size - 1) 0 hfull
        (fun x hx1 hx2 => Bool.eq_false_iff.2 (fun hx => hex ⟨x, hx1, hx2, hx⟩))
      cases fuel with
      | zero => simp [backtrack, hguard] at h
      | succ fuel =>
        rw [backtrack, if_pos hguard, hnone] at h
        cases h
  · cases fuel with
    | zero =>
      simp only [backtrack, hguard, if_false] at h
      exact absurd (by simpa using h.symm) hne
    | succ fuel =>
      rw [backtrack, if_neg hguard] at h
      exact absurd (by simpa using h.symm) hne

/-- On a graph with between 1 and 30 vertices and no Hamiltonian path, the scan of
line 110 reads past the last column of the full-set row. -/
theorem findHamiltonianPath_fault (G : Graph) (hwf : G.WF) (hn : G.size ≤ 30)
    (hpos : 0 < G.size) (hno : ∀ p, ¬ G.HamPath p) (fuel : Nat) :
    findHamiltonianPath (fuel + 1) G = .error Fault.outOfRange := by
  obtain ⟨H, hfill, heq⟩ := findHamiltonianPath_eq G hwf hn
  have hfull : 2 ^ G.size - 1 < 2 ^ G.size := by
    have := Nat.two_pow_pos G.size
    omega
  have hguard : 2 ^ G.size - 1 > 0 ∧ 0 < G.size := by
    refine ⟨?_, hpos⟩
    have : 2 ^ 1 ≤ 2 ^ G.size := Nat.pow_le_pow_right (by decide) hpos
    omega
  have hnone : ∀ x, 0 ≤ x → x < G.size → (cell H (2 ^ G.size - 1) x).1 = false := by
    intro x hx1 hx2
    apply Bool.eq_false_iff.2
    intro hx
    obtain ⟨e2, path, -, hpath, -, -, -⟩ := backtrack_spec G H hfill G.size
      (2 ^ G.size - 1) 0 [] hfull ⟨x, hx1, hx2, hx⟩ (card_le _ _)
    exact hno _ ((pathOver_full G _).1 hpath)
  rw [heq, backtrack, if_pos hguard,
    findEndpoint_none H G.size hfill.1 (2 ^ G.size - 1) 0 hfull hnone]
  rfl

/-! ## Lemmas on `areOneAway` -/

theorem foldl_counter (p : Nat → Prop) [DecidablePred p] (l : List Nat) (d : Nat) :
    l.foldl (fun d i => if p i then d + 1 else d) d = d + l.countP (fun i => decide (p i)) := by
  induction l generalizing d with
  | nil => simp
  | cons x xs ih =>
    simp only [List.foldl_cons, ih, List.countP_cons]
    by_cases hx : p x
    · simp [hx]; omega
    · simp [hx]

theorem difference_nil (b : Word) : difference [] b = 0 := by
  simp [difference]

theorem difference_cons (x y : Char) (a b : Word) :
    difference (x :: a) (y :: b) = (if x = y then 0 else 1) + difference a b := by
  unfold difference
  rw [foldl_counter, foldl_counter, List.length_cons, List.range_succ_eq_map,
    List.countP_cons, List.countP_map]
  by_cases hxy : x = y
  · simp [hxy, Function.comp_def]
  · simp [hxy, Function.comp_def]; omega

theorem difference_self (a : Word) : difference a a = 0 := by
  induction a with
  | nil => exact difference_nil _
  | cons x a ih => simp [difference_cons, ih]

theorem difference_comm (a b : Word) (h : a.length = b.length) :
    difference a b = difference b a := by
  induction a generalizing b with
  | nil => cases b with
    | nil => rfl
    | cons y b => simp at h
  | cons x a ih => cases b with
    | nil => simp at h
    | cons y b =>
      simp only [List.length_cons, Nat.add_right_cancel_iff] at h
      rw [difference_cons, difference_cons, ih b h]
      by_cases hxy : x = y
      · simp [hxy]
      · have hyx : ¬ y = x := fun e => hxy e.symm
        simp [hxy, hyx]

theorem difference_eq_zero (a b : Word) (h : a.length = b.length) :
    difference a b = 0 ↔ a = b := by
  induction a generalizing b with
  | nil => cases b with
    | nil => simp [difference_nil]
    | cons y b => simp at h
  | cons x a ih => cases b with
    | nil => simp at h
    | cons y b =>
      simp only [List.length_cons, Nat.add_right_cancel_iff] at h
      rw [difference_cons]
      by_cases hxy : x = y
      · simp [hxy, ih b h]
      · simp [hxy]

theorem difference_eq_one (a b : Word) (h : a.length = b.length) :
    difference a b = 1 ↔ Substitution a b := by
  induction a generalizing b with
  | nil => cases b with
    | nil =>
      simp only [difference_nil, Substitution]
      constructor
      · intro h0; omega
      · rintro ⟨p, s, c, d, -, hp, -⟩
        simp at hp
    | cons y b => simp at h
  | cons x a ih => cases b with
    | nil => simp at h
    | cons y b =>
      simp only [List.length_cons, Nat.add_right_cancel_iff] at h
      rw [difference_cons]
      constructor
      · intro hd
        by_cases hxy : x = y
        · simp only [hxy, if_true, Nat.zero_add] at hd
          obtain ⟨p, s, c, d, hcd, hp, hq⟩ := (ih b h).1 hd
          exact ⟨x :: p, s, c, d, hcd, by simp [hp], by simp [hq, hxy]⟩
        · simp only [hxy, if_false] at hd
          have h0 : difference a b = 0 := by omega
          have hab := (difference_eq_zero a b h).1 h0
          exact ⟨[], a, x, y, hxy, by simp, by simp [hab]⟩
      · rintro ⟨p, s, c, d, hcd, hp, hq⟩
        cases p with
        | nil =>
          simp only [List.nil_append, List.cons.injEq] at hp hq
          obtain ⟨rfl, rfl⟩ := hp
          obtain ⟨rfl, rfl⟩ := hq
          simp [hcd, difference_self]
        | cons z p =>
          simp only [List.cons_append, List.cons.injEq] at hp hq
          obtain ⟨rfl, hp⟩ := hp
          obtain ⟨rfl, hq⟩ := hq
          have := (ih b h).2 ⟨p, s, c, d, hcd, hp, hq⟩
          simp [this]

theorem any_eraseIdx (a b : Word) :
    ((List.range a.length).any fun i => a.eraseIdx i == b) = true ↔ Deletion a b := by
  simp only [List.any_eq_true, List.mem_range, beq_iff_eq, Deletion]
  constructor
  · rintro ⟨i, hi, rfl⟩
    refine ⟨a.take i, a.drop (i + 1), a.get ⟨i, hi⟩, ?_, ?_⟩
    · conv_lhs => rw [← List.take_append_drop i a, List.drop_eq_getElem_cons hi]
      rfl
    · exact List.eraseIdx_eq_take_drop_succ a i
  · rintro ⟨p, s, c, rfl, rfl⟩
    refine ⟨p.length, by simp, ?_⟩
    rw [List.eraseIdx_append_of_length_le (Nat.le_refl _)]
    simp

theorem insertion_length {a b : Word} (h : Insertion a b) : b.length = a.length + 1 := by
  obtain ⟨p, s, c, rfl, rfl⟩ := h
  simp; omega

theorem deletion_length {a b : Word} (h : Deletion a b) : a.length = b.length + 1 := by
  obtain ⟨p, s, c, rfl, rfl⟩ := h
  simp; omega

theorem substitution_length {a b : Word} (h : Substitution a b) : a.length = b.length := by
  obtain ⟨p, s, c, d, -, rfl, rfl⟩ := h
  simp

theorem insertion_iff_deletion (a b : Word) : Insertion a b ↔ Deletion b a := by
  constructor
  · rintro ⟨p, s, c, h1, h2⟩
    exact ⟨p, s, c, h2, h1⟩
  · rintro ⟨p, s, c, h1, h2⟩
    exact ⟨p, s, c, h2, h1⟩

theorem areOneAway_iff_oneEdit (a b : Word) : areOneAway a b = true ↔ OneEdit a b := by
  unfold areOneAway areOneAwayLongShort OneEdit
  by_cases hlt : a.length < b.length
  · simp only [hlt, if_true]
    by_cases hgap : b.length - a.length > 1
    · simp only [hgap, if_true]
      constructor
      · intro h; cases h
      · rintro (h | h | h)
        · have := insertion_length h; omega
        · have := deletion_length h; omega
        · have := substitution_length h; omega
    · have hne : ¬ b.length = a.length := by omega
      simp only [hgap, hne, if_false, any_eraseIdx]
      constructor
      · intro h; exact Or.inl ((insertion_iff_deletion a b).2 h)
      · rintro (h | h | h)
        · exact (insertion_iff_deletion a b).1 h
        · have := deletion_length h; omega
        · have := substitution_length h; omega
  · simp only [hlt, if_false]
    by_cases hgap : a.length - b.length > 1
    · simp only [hgap, if_true]
      constructor
      · intro h; cases h
      · rintro (h | h | h)
        · have := insertion_length h; omega
        · have := deletion_length h; omega
        · have := substitution_length h; omega
    · simp only [hgap, if_false]
      by_cases heq : a.length = b.length
      · simp only [heq, if_true, beq_iff_eq, difference_eq_one a b heq]
        constructor
        · intro h; exact Or.inr (Or.inr h)
        · rintro (h | h | h)
          · have := insertion_length h; omega
          · have := deletion_length h; omega
          · exact h
      · simp only [heq, if_false, any_eraseIdx]
        constructor
        · intro h; exact Or.inr (Or.inl h)
        · rintro (h | h | h)
          · have := insertion_length h; omega
          · exact h
          · have := substitution_length h; omega

theorem areOneAway_comm (a b : Word) : areOneAway a b = areOneAway b a := by
  unfold areOneAway
  by_cases h1 : a.length < b.length
  · have h2 : ¬ b.length < a.length := by omega
    simp [h1, h2]
  · by_cases h2 : b.length < a.length
    · simp [h1, h2]
    · have heq : a.length = b.length := by omega
      simp only [h1, h2, if_false]
      unfold areOneAwayLongShort
      simp [heq, difference_comm a b heq]

theorem areOneAway_self (a : Word) : areOneAway a a = false := by
  simp [areOneAway, areOneAwayLongShort, difference_self]

/-! ## `OneEdit` and the Levenshtein distance -/

theorem lev_nil_left (b : Word) : levenshtein Levenshtein.defaultCost ([] : Word) b = b.length := by
  induction b with
  | nil => simp
  | cons y ys ih => simp [ih]; omega

theorem lev_nil_right (a : Word) : levenshtein Levenshtein.defaultCost a ([] : Word) = a.length := by
  induction a with
  | nil => simp
  | cons x xs ih => simp [ih]; omega

theorem lev_eq_zero (a : Word) : ∀ b : Word, levenshtein Levenshtein.defaultCost a b = 0 ↔ a = b := by
  induction a with
  | nil =>
    intro b
    rw [lev_nil_left]
    cases b <;> simp
  | cons x xs ih =>
    intro b
    cases b with
    | nil => rw [lev_nil_right]; simp
    | cons y ys =>
      rw [levenshtein_cons_cons]
      simp only [Levenshtein.defaultCost_delete, Levenshtein.defaultCost_insert, Levenshtein.defaultCost_substitute, List.cons.injEq]
      rw [← ih ys]
      by_cases hxy : x = y
      · simp [hxy]
      · simp [hxy]

theorem oneEdit_cons (x : Char) (a b : Word) : OneEdit (x :: a) (x :: b) ↔ OneEdit a b := by
  constructor
  · rintro (⟨p, s, c, h1, h2⟩ | ⟨p, s, c, h1, h2⟩ | ⟨p, s, c, d, hcd, h1, h2⟩)
    · cases p with
      | nil =>
        simp only [List.nil_append] at h1 h2
        rw [← h1] at h2
        simp only [List.cons.injEq] at h2
        exact Or.inl ⟨[], a, x, rfl, h2.2⟩
      | cons z p =>
        simp only [List.cons_append, List.cons.injEq] at h1 h2
        exact Or.inl ⟨p, s, c, h1.2, h2.2⟩
    · cases p with
      | nil =>
        simp only [List.nil_append] at h1 h2
        rw [← h2] at h1
        simp only [List.cons.injEq] at h1
        exact Or.inr (Or.inl ⟨[], b, x, h1.2, rfl⟩)
      | cons z p =>
        simp only [List.cons_append, List.cons.injEq] at h1 h2
        exact Or.inr (Or.inl ⟨p, s, c, h1.2, h2.2⟩)
    · cases p with
      | nil =>
        simp only [List.nil_append, List.cons.injEq] at h1 h2
        exact absurd (h1.1.symm.trans h2.1) hcd
      | cons z p =>
        simp only [List.cons_append, List.cons.injEq] at h1 h2
        exact Or.inr (Or.inr ⟨p, s, c, d, hcd, h1.2, h2.2⟩)
  · rintro (⟨p, s, c, h1, h2⟩ | ⟨p, s, c, h1, h2⟩ | ⟨p, s, c, d, hcd, h1, h2⟩)
    · exact Or.inl ⟨x :: p, s, c, by simp [h1], by simp [h2]⟩
    · exact Or.inr (Or.inl ⟨x :: p, s, c, by simp [h1], by simp [h2]⟩)
    · exact Or.inr (Or.inr ⟨x :: p, s, c, d, hcd, by simp [h1], by simp [h2]⟩)

theorem oneEdit_ne (a b : Word) (h : OneEdit a b) : a ≠ b := by
  rintro rfl
  rcases h with ⟨p, s, c, h1, h2⟩ | ⟨p, s, c, h1, h2⟩ | ⟨p, s, c, d, hcd, h1, h2⟩
  · have := congrArg List.length (h1.symm.trans h2)
    simp at this
  · have := congrArg List.length (h1.symm.trans h2)
    simp at this
  · have := List.append_cancel_left (h1.symm.trans h2)
    simp only [List.cons.injEq] at this
    exact hcd this.1

theorem lev_eq_one (a : Word) : ∀ b : Word, levenshtein Levenshtein.defaultCost a b = 1 ↔ OneEdit a b := by
  induction a with
  | nil =>
    intro b
    rw [lev_nil_left]
    constructor
    · intro h
      obtain ⟨c, rfl⟩ := List.length_eq_one.1 h
      exact Or.inl ⟨[], [], c, rfl, rfl⟩
    · rintro (h | h | h)
      · have := insertion_length h; simpa using this
      · have := deletion_length h; simp at this
      · obtain ⟨p, s, c, d, -, h1, -⟩ := h
        simp at h1
  | cons x xs ih =>
    intro b
    cases b with
    | nil =>
      rw [lev_nil_right]
      constructor
      · intro h
        obtain ⟨c, hc⟩ := List.length_eq_one.1 h
        exact Or.inr (Or.inl ⟨[], [], c, hc, rfl⟩)
      · rintro (h | h | h)
        · have := insertion_length h; simp at this
        · have := deletion_length h; simpa using this
        · obtain ⟨p, s, c, d, -, -, h2⟩ := h
          simp at h2
    | cons y ys =>
      rw [levenshtein_cons_cons]
      simp only [Levenshtein.defaultCost_delete, Levenshtein.defaultCost_insert, Levenshtein.defaultCost_substitute]
      have hA := lev_eq_zero xs (y :: ys)
      have hB := lev_eq_zero (x :: xs) ys
      have hC0 := lev_eq_zero xs ys
      have hC1 := ih ys
      constructor
      · intro h
        by_cases hA0 : levenshtein Levenshtein.defaultCost xs (y :: ys) = 0
        · exact Or.inr (Or.inl ⟨[], y :: ys, x, by simp [hA.1 hA0], rfl⟩)
        · by_cases hB0 : levenshtein Levenshtein.defaultCost (x :: xs) ys = 0
          · exact Or.inl ⟨[], x :: xs, y, rfl, by simp [hB.1 hB0]⟩
          · by_cases hxy : x = y
            · subst hxy
              simp only [if_true, Nat.zero_add] at h
              have : levenshtein Levenshtein.defaultCost xs ys = 1 := by omega
              exact (oneEdit_cons x xs ys).2 (hC1.1 this)
            · simp only [hxy, if_false] at h
              have : levenshtein Levenshtein.defaultCost xs ys = 0 := by omega
              exact Or.inr (Or.inr ⟨[], xs, x, y, hxy, rfl, by simp [hC0.1 this]⟩)
      · intro h
        have hne := oneEdit_ne _ _ h
        have hpos : ¬ ((if x = y then 0 else 1) + levenshtein Levenshtein.defaultCost xs ys = 0) := by
          intro h0
          by_cases hxy : x = y
          · simp only [hxy, if_true, Nat.zero_add] at h0
            exact hne (by rw [hxy, hC0.1 h0])
          · simp [hxy] at h0
        have hle : levenshtein Levenshtein.defaultCost xs (y :: ys) = 0 ∨
            levenshtein Levenshtein.defaultCost (x :: xs) ys = 0 ∨
            (if x = y then 0 else 1) + levenshtein Levenshtein.defaultCost xs ys = 1 := by
          rcases h with ⟨p, s, c, h1, h2⟩ | ⟨p, s, c, h1, h2⟩ | ⟨p, s, c, d, hcd, h1, h2⟩
          · cases p with
            | nil =>
              simp only [List.nil_append, List.cons.injEq] at h1 h2
              right; left
              rw [hB, h1, h2.2]
            | cons z p =>
              simp only [List.cons_append, List.cons.injEq] at h1 h2
              right; right
              have hxy : x = y := h1.1.trans h2.1.symm
              have := hC1.2 (Or.inl ⟨p, s, c, h1.2, h2.2⟩)
              simp [hxy, this]
          · cases p with
            | nil =>
              simp only [List.nil_append, List.cons.injEq] at h1 h2
              left
              rw [hA, h1.2, h2]
            | cons z p =>
              simp only [List.cons_append, List.cons.injEq] at h1 h2
              right; right
              have hxy : x = y := h1.1.trans h2.1.symm
              have := hC1.2 (Or.inr (Or.inl ⟨p, s, c, h1.2, h2.2⟩))
              simp [hxy, this]
          · cases p with
            | nil =>
              simp only [List.nil_append, List.cons.injEq] at h1 h2
              right; right
              have hxy : ¬ x = y := by rw [h1.1, h2.1]; exact hcd
              have : levenshtein Levenshtein.defaultCost xs ys = 0 := by rw [hC0, h1.2, h2.2]
              simp [hxy, this]
            | cons z p =>
              simp only [List.cons_append, List.cons.injEq] at h1 h2
              right; right
              have hxy : x = y := h1.1.trans h2.1.symm
              have := hC1.2 (Or.inr (Or.inr ⟨p, s, c, d, hcd, h1.2, h2.2⟩))
              simp [hxy, this]
        omega

/-! ## Lemmas on `wordChain` -/

theorem map_range_getD {α : Type} (d : α) (l : List α) :
    (List.range l.length).map (fun i => l[i]?.getD d) = l := by
  apply List.ext_getElem
  · simp
  · intro i h1 h2
    simp [List.getElem?_eq_getElem h2]

/-- A permutation of a list is that list read at a permutation of its positions. -/
theorem perm_indices {α : Type} (d : α) {r words : List α} (h : r.Perm words) :
    ∃ idx : List Nat, idx.Perm (List.range words.length) ∧
      r = idx.map (fun i => words[i]?.getD d) := by
  induction h with
  | nil => exact ⟨[], by simp, rfl⟩
  | @cons x l1 l2 _ ih =>
    obtain ⟨idx, hperm, hmap⟩ := ih
    refine ⟨0 :: idx.map (· + 1), ?_, ?_⟩
    · rw [List.length_cons, List.range_succ_eq_map]
      exact List.Perm.cons 0 (hperm.map _)
    · simp only [List.map_cons, List.map_map, List.getElem?_cons_zero, Option.getD_some]
      rw [hmap]
      congr 1
      apply List.map_congr_left
      intro i _
      simp
  | swap x y l =>
    refine ⟨1 :: 0 :: (List.range l.length).map (· + 2), ?_, ?_⟩
    · rw [List.length_cons, List.length_cons, List.range_succ_eq_map, List.range_succ_eq_map]
      simp only [List.map_cons, List.map_map]
      exact List.Perm.swap _ _ _
    · simp only [List.map_cons, List.map_map, List.getElem?_cons_zero, Option.getD_some]
      have : (List.range l.length).map
          ((fun i => (x :: y :: l)[i]?.getD d) ∘ fun x => x + 2) = l := by
        have h2 : (List.range l.length).map
            ((fun i => (x :: y :: l)[i]?.getD d) ∘ fun x => x + 2) =
            (List.range l.length).map (fun i => l[i]?.getD d) :=
          List.map_congr_left (fun i _ => by simp)
        rw [h2, map_range_getD d l]
      rw [this]
      simp
  | @trans l1 l2 l3 _ _ ih1 ih2 =>
    obtain ⟨idx1, hperm1, hmap1⟩ := ih1
    obtain ⟨idx2, hperm2, hmap2⟩ := ih2
    have hlen : l2.length = idx2.length := by rw [hmap2]; simp
    refine ⟨idx1.map (fun i => idx2[i]?.getD 0), ?_, ?_⟩
    · have h1 := hperm1.map (fun i => idx2[i]?.getD 0)
      rw [hlen, map_range_getD 0 idx2] at h1
      exact h1.trans hperm2
    · rw [hmap1, List.map_map]
      apply List.map_congr_left
      intro i hi
      have hi2 : i < l2.length := List.mem_range.1 (hperm1.mem_iff.1 hi)
      have hi3 : i < idx2.length := by omega
      simp only [Function.comp]
      conv_lhs => rw [hmap2]
      simp [List.getElem?_eq_getElem hi3]

theorem chain_imp_of_mem {α : Type} {R Q : α → α → Prop} : ∀ (l : List α),
    (∀ a b, a ∈ l → b ∈ l → R a b → Q a b) → List.Chain' R l → List.Chain' Q l
  | [], _, _ => List.chain'_nil
  | [_], _, _ => List.chain'_singleton _
  | a :: b :: l, himp, h => by
    rw [List.chain'_cons] at h ⊢
    exact ⟨himp a b (List.mem_cons_self _ _) (List.mem_cons_of_mem _ (List.mem_cons_self _ _)) h.1,
      chain_imp_of_mem (b :: l)
        (fun x y hx hy => himp x y (List.mem_cons_of_mem _ hx) (List.mem_cons_of_mem _ hy)) h.2⟩

theorem wordAt_range (words : List Word) :
    (List.range words.length).map (wordAt words) = words :=
  map_range_getD [] words

/-- A Hamiltonian path of the one-away graph, read as words, is a permutation of the
input in which each word is one away from the next. -/
theorem hamPath_words (words : List Word) (G : Graph) (hsize : G.size = words.length)
    (hadj : ∀ i j, G.adj i j = (decide (i < words.length ∧ j < words.length) &&
      areOneAway (wordAt words i) (wordAt words j)))
    (order : List Nat) (h : G.HamPath order) :
    (order.map (wordAt words)).Perm words ∧
      List.Chain' (fun a b => areOneAway a b = true) (order.map (wordAt words)) := by
  constructor
  · have := h.1.map (wordAt words)
    rw [hsize, wordAt_range] at this
    exact this
  · rw [List.chain'_map]
    apply List.Chain'.imp _ h.2
    intro a b hab
    rw [hadj] at hab
    simp only [Bool.and_eq_true] at hab
    exact hab.2

/-- An ordering of the words that is a chain gives a Hamiltonian path of the one-away
graph. -/
theorem hasChain_hamPath (words : List Word) (G : Graph) (hsize : G.size = words.length)
    (hadj : ∀ i j, G.adj i j = (decide (i < words.length ∧ j < words.length) &&
      areOneAway (wordAt words i) (wordAt words j)))
    (h : HasChain words) : ∃ p, G.HamPath p := by
  obtain ⟨r, hperm, hchain⟩ := h
  obtain ⟨idx, hidx, hmap⟩ := perm_indices ([] : Word) hperm
  refine ⟨idx, by rw [hsize]; exact hidx, ?_⟩
  have hchain2 : List.Chain' (fun a b => OneEdit (wordAt words a) (wordAt words b)) idx := by
    rw [hmap] at hchain
    exact (List.chain'_map _).1 hchain
  apply chain_imp_of_mem idx _ hchain2
  intro a b ha hb hab
  have ha2 : a < words.length := List.mem_range.1 (hidx.mem_iff.1 ha)
  have hb2 : b < words.length := List.mem_range.1 (hidx.mem_iff.1 hb)
  rw [hadj]
  simp [ha2, hb2, (areOneAway_iff_oneEdit _ _).2 hab]

theorem oneAwayG_symm (words : List Word) (G : Graph)
    (hadj : ∀ i j, G.adj i j = (decide (i < words.length ∧ j < words.length) &&
      areOneAway (wordAt words i) (wordAt words j))) : G.Symm := by
  intro i j
  rw [hadj, hadj, areOneAway_comm]
  by_cases hi : i < words.length <;> by_cases hj : j < words.length <;> simp [hi, hj]

theorem collectWords_append (words : List Word) : ∀ (order : List Nat) (acc : List Word),
    (∀ i ∈ order, i < words.length) →
    order.foldlM (fun result i => do pure (result ++ [← readAt words i])) acc =
      (.ok (acc ++ order.map (wordAt words)) : Run (List Word)) := by
  intro order
  induction order with
  | nil => intro acc _; simp
  | cons i rest ih =>
    intro acc hlt
    have hi : i < words.length := hlt i (List.mem_cons_self _ _)
    rw [List.foldlM_cons, readAt_eq_getD words i [] hi]
    simp only [run_ok_bind, pure_bind]
    rw [ih _ (fun x hx => hlt x (List.mem_cons_of_mem _ hx))]
    simp [wordAt]

theorem collectWords_eq (words : List Word) (order : List Nat)
    (h : ∀ i ∈ order, i < words.length) :
    collectWords words order = .ok (order.map (wordAt words)) := by
  unfold collectWords
  rw [collectWords_append words order [] h]
  simp

theorem hamPath_lt (G : Graph) (order : List Nat) (h : G.HamPath order) :
    ∀ i ∈ order, i < G.size :=
  fun _ hi => List.mem_range.1 (h.1.mem_iff.1 hi)

/-- The run of `wordChain` after the graph is built. -/
theorem wordChainWith_eq (solver : Graph → Run (List Nat)) (fuel : Nat) (words : List Word)
    (G : Graph) (hG : oneAwayG words = .ok G) :
    wordChainWith solver fuel words =
      (isConnected fuel G >>= fun c =>
        if (!c) = true then pure [] else solver G >>= fun order => collectWords words order) := by
  unfold wordChainWith
  rw [hG]
  rfl

/-- Soundness of `wordChain` for at most 30 words, whatever the budget. -/
theorem wordChain_sound (fuel : Nat) (words r : List Word) (hn : words.length ≤ 30)
    (h : wordChain fuel words = .ok r) (hr : r ≠ []) :
    ∃ order : List Nat, order.Perm (List.range words.length) ∧ r = order.map (wordAt words) ∧
      r.Perm words ∧ List.Chain' (fun a b => areOneAway a b = true) r := by
  obtain ⟨G, hG, hwf, hsize, hadj⟩ := oneAwayG_spec words
  unfold wordChain at h
  rw [wordChainWith_eq _ fuel words G hG] at h
  cases hc : isConnected fuel G with
  | error e => rw [hc] at h; cases h
  | ok c =>
    rw [hc] at h
    cases c with
    | false =>
      simp only [run_ok_bind, Bool.not_false, if_true, run_pure] at h
      exact absurd (by simpa using h.symm) hr
    | true =>
      simp only [run_ok_bind, Bool.not_true, Bool.false_eq_true, if_false] at h
      cases hs : findHamiltonianPath fuel G with
      | error e => rw [hs] at h; cases h
      | ok order =>
        rw [hs] at h
        simp only [run_ok_bind] at h
        have hne : order ≠ [] := by
          intro hnil
          rw [hnil] at h
          simp [collectWords] at h
          exact hr h
        have hham := findHamiltonianPath_sound G hwf (by rw [hsize]; exact hn) fuel order hs hne
        rw [collectWords_eq words order
          (fun i hi => by rw [← hsize]; exact hamPath_lt G order hham i hi)] at h
        have hrw : r = order.map (wordAt words) := by simpa using h.symm
        have hwords := hamPath_words words G hsize hadj order hham
        refine ⟨order, by rw [← hsize]; exact hham.1, hrw, ?_, ?_⟩
        · rw [hrw]; exact hwords.1
        · rw [hrw]; exact hwords.2

/-- Completeness of `wordChain` for between 1 and 30 words, with enough budget. -/
theorem wordChain_complete (fuel : Nat) (words : List Word) (hpos : 0 < words.length)
    (hn : words.length ≤ 30) (hfuel : words.length ≤ fuel) (h : HasChain words) :
    ∃ r, wordChain fuel words = .ok r ∧ r ≠ [] ∧ r.Perm words ∧
      List.Chain' (fun a b => areOneAway a b = true) r := by
  obtain ⟨G, hG, hwf, hsize, hadj⟩ := oneAwayG_spec words
  obtain ⟨p, hp⟩ := hasChain_hamPath words G hsize hadj h
  obtain ⟨b, hb, hiff⟩ := isConnected_spec G hwf (by rw [hsize]; exact hpos) fuel
    (by rw [hsize]; exact hfuel)
  have hbtrue : b = true := hiff.2 (reach_of_hamPath G (oneAwayG_symm words G hadj) p hp)
  obtain ⟨order, horder, hham, hne⟩ := findHamiltonianPath_complete G hwf
    (by rw [hsize]; exact hn) fuel (by rw [hsize]; exact hfuel) p hp (by rw [hsize]; exact hpos)
  have hwords := hamPath_words words G hsize hadj order hham
  refine ⟨order.map (wordAt words), ?_, by simpa using hne, hwords.1, hwords.2⟩
  unfold wordChain
  rw [wordChainWith_eq _ fuel words G hG, hb, hbtrue]
  simp only [run_ok_bind, Bool.not_true, Bool.false_eq_true, if_false]
  rw [horder]
  simp only [run_ok_bind]
  exact collectWords_eq words order
    (fun i hi => by rw [← hsize]; exact hamPath_lt G order hham i hi)

/-- With more than 30 words `wordChain` never returns a non-empty result. -/
theorem wordChain_large (fuel : Nat) (words r : List Word) (hn : 30 < words.length)
    (h : wordChain fuel words = .ok r) : r = [] := by
  obtain ⟨G, hG, hwf, hsize, hadj⟩ := oneAwayG_spec words
  unfold wordChain at h
  rw [wordChainWith_eq _ fuel words G hG] at h
  cases hc : isConnected fuel G with
  | error e => rw [hc] at h; cases h
  | ok c =>
    rw [hc] at h
    cases c with
    | false =>
      simp only [run_ok_bind, Bool.not_false, if_true, run_pure] at h
      simpa using h.symm
    | true =>
      simp only [run_ok_bind, Bool.not_true, Bool.false_eq_true, if_false] at h
      rw [findHamiltonianPath_overflow G fuel (by rw [hsize]; exact hn)] at h
      cases h

/-- Once the budget covers the vertex count, the result of `findHamiltonianPath` does
not depend on it. -/
theorem findHamiltonianPath_fuel (G : Graph) (hwf : G.WF) (hpos : 0 < G.size) (fuel : Nat)
    (hfuel : G.size ≤ fuel) : findHamiltonianPath fuel G = findHamiltonianPath G.size G := by
  by_cases hn : G.size ≤ 30
  · by_cases hex : ∃ p, G.HamPath p
    · obtain ⟨p, hp⟩ := hex
      obtain ⟨H, hfill, heq⟩ := findHamiltonianPath_eq G hwf hn
      obtain ⟨order, horder, -, -⟩ :=
        findHamiltonianPath_complete G hwf hn G.size (Nat.le_refl _) p hp hpos
      obtain ⟨k, hk⟩ := Nat.exists_eq_add_of_le hfuel
      rw [horder, hk, heq]
      rw [heq] at horder
      exact backtrack_mono_le H G.size G.size _ _ _ _ horder k
    · have hno : ∀ p, ¬ G.HamPath p := fun p hp => hex ⟨p, hp⟩
      obtain ⟨k, hk⟩ := Nat.exists_eq_add_of_le' (Nat.lt_of_lt_of_le hpos hfuel)
      obtain ⟨m, hm⟩ := Nat.exists_eq_add_of_le' hpos
      have h1 := findHamiltonianPath_fault G hwf hn hpos hno k
      have h2 := findHamiltonianPath_fault G hwf hn hpos hno m
      rw [← hk] at h1
      rw [← hm] at h2
      rw [h1, h2]
  · rw [findHamiltonianPath_overflow G fuel (by omega),
      findHamiltonianPath_overflow G G.size (by omega)]

/-- Once the budget covers the word count, the result of `wordChain` does not depend
on it. -/
theorem wordChain_fuel (words : List Word) (hpos : 0 < words.length) (fuel : Nat)
    (hfuel : words.length ≤ fuel) : wordChain fuel words = wordChain words.length words := by
  obtain ⟨G, hG, hwf, hsize, hadj⟩ := oneAwayG_spec words
  have hpos2 : 0 < G.size := by rw [hsize]; exact hpos
  obtain ⟨b1, hb1, hiff1⟩ := isConnected_spec G hwf hpos2 fuel (by rw [hsize]; exact hfuel)
  obtain ⟨b2, hb2, hiff2⟩ := isConnected_spec G hwf hpos2 words.length (by rw [hsize])
  have hb : b1 = b2 := by
    have hiff : b1 = true ↔ b2 = true := hiff1.trans hiff2.symm
    cases b1 <;> cases b2 <;> simp at hiff <;> rfl
  unfold wordChain
  rw [wordChainWith_eq _ fuel words G hG, wordChainWith_eq _ words.length words G hG, hb1, hb2,
    hb, findHamiltonianPath_fuel G hwf hpos2 fuel (by rw [hsize]; exact hfuel), hsize]

/-- When no two words are one edit apart, only vertex 0 is reachable from vertex 0. -/
theorem reach_of_no_edge (G : Graph) (hno : ∀ i j, G.adj i j = false) (u : Nat)
    (h : G.Reach 0 u) : u = 0 := by
  induction h with
  | refl => rfl
  | tail _ hedge _ =>
    have := hedge.2.2
    rw [hno] at this
    cases this

/-- A non-empty result of `wordChain` exists exactly for the lists of 1 to 30 words that
have a chain (given a budget of at least the word count). -/
theorem wordChain_nonempty_iff (fuel : Nat) (words : List Word) (hfuel : words.length ≤ fuel) :
    (∃ r, wordChain fuel words = .ok r ∧ r ≠ []) ↔
      (0 < words.length ∧ words.length ≤ 30 ∧ HasChain words) := by
  constructor
  · rintro ⟨r, hrun, hr⟩
    have hpos : 0 < words.length := by
      rcases Nat.eq_zero_or_pos words.length with h0 | hpos
      · have hnil : words = [] := List.length_eq_zero.1 h0
        subst hnil
        cases fuel with
        | zero => cases hrun
        | succ fuel => cases hrun
      · exact hpos
    have hn : words.length ≤ 30 := by
      by_contra hgt
      exact hr (wordChain_large fuel words r (by omega) hrun)
    obtain ⟨order, -, -, hperm, hchain⟩ := wordChain_sound fuel words r hn hrun hr
    exact ⟨hpos, hn, r, hperm,
      hchain.imp (fun {a b} hab => (areOneAway_iff_oneEdit a b).1 hab)⟩
  · rintro ⟨hpos, hn, hchain⟩
    obtain ⟨r, hrun, hr, -, -⟩ := wordChain_complete fuel words hpos hn hfuel hchain
    exact ⟨r, hrun, hr⟩

theorem chain_of_chainCheck : ∀ l : List Word, chainCheck l = true →
    List.Chain' (fun a b => areOneAway a b = true) l
  | [], _ => List.chain'_nil
  | [_], _ => List.chain'_singleton _
  | a :: b :: l, h => by
    simp only [chainCheck, Bool.and_eq_true] at h
    exact List.chain'_cons.2 ⟨h.1, chain_of_chainCheck (b :: l) h.2⟩

theorem hasChain_of_chainCheck (words r : List Word) (hperm : r.Perm words)
    (h : chainCheck r = true) : HasChain words :=
  ⟨r, hperm, List.Chain'.imp (fun {a b} hab => (areOneAway_iff_oneEdit a b).1 hab)
    (chain_of_chainCheck r h)⟩

theorem hasChain_perm (words words2 : List Word) (hperm : words2.Perm words)
    (h : HasChain words) : HasChain words2 := by
  obtain ⟨r, hr, hchain⟩ := h
  exact ⟨r, hr.trans hperm.symm, hchain⟩

/-! ## Further lemmas on `areOneAway` -/

theorem difference_eq_countP (a b : Word) :
    difference a b = (List.range a.length).countP (fun i => decide (a[i]? ≠ b[i]?)) := by
  unfold difference
  rw [foldl_counter]
  simp

theorem countP_range_eq_one (p : Nat → Bool) (n : Nat) :
    (List.range n).countP p = 1 ↔ ∃! i, i < n ∧ p i = true := by
  rw [List.countP_eq_length_filter, List.length_eq_one]
  constructor
  · rintro ⟨i, hi⟩
    have hmem : ∀ x, x ∈ (List.range n).filter p ↔ x = i := by
      intro x
      rw [hi]
      simp
    have hi2 := (hmem i).2 rfl
    rw [List.mem_filter, List.mem_range] at hi2
    refine ⟨i, hi2, ?_⟩
    rintro y ⟨hy1, hy2⟩
    exact (hmem y).1 (List.mem_filter.2 ⟨List.mem_range.2 hy1, hy2⟩)
  · rintro ⟨i, ⟨hi1, hi2⟩, huniq⟩
    refine ⟨i, ?_⟩
    apply List.perm_singleton.1
    rw [List.perm_ext_iff_of_nodup ((List.nodup_range n).filter p) (List.nodup_singleton i)]
    intro x
    rw [List.mem_filter, List.mem_range, List.mem_singleton]
    constructor
    · intro hx
      exact huniq x hx
    · rintro rfl
      exact ⟨hi1, hi2⟩

/-- For strings of equal length `areOneAway` holds exactly when one position differs. -/
theorem areOneAway_of_eq_length (a b : Word) (h : a.length = b.length) :
    areOneAway a b = true ↔ ∃! i, i < a.length ∧ a[i]? ≠ b[i]? := by
  have hlt : ¬ a.length < b.length := by omega
  have hgap : ¬ a.length - b.length > 1 := by omega
  unfold areOneAway areOneAwayLongShort
  rw [if_neg hlt, if_neg hgap, if_pos h, beq_iff_eq, difference_eq_countP, countP_range_eq_one]
  simp

theorem any_eraseIdx_iff (a b : Word) :
    ((List.range a.length).any fun i => a.eraseIdx i == b) = true ↔
      ∃ i, i < a.length ∧ a.eraseIdx i = b := by
  simp only [List.any_eq_true, List.mem_range, beq_iff_eq]

theorem length_eraseIdx_lt (a : Word) (i : Nat) (hi : i < a.length) :
    (a.eraseIdx i).length + 1 = a.length := by
  rw [List.length_eraseIdx, if_pos hi]
  omega

/-- For strings of different lengths `areOneAway` holds exactly when deleting one
character of the longer one gives the shorter one. -/
theorem areOneAway_of_ne_length (a b : Word) (h : a.length ≠ b.length) :
    areOneAway a b = true ↔
      (a.length = b.length + 1 ∧ ∃ i, i < a.length ∧ a.eraseIdx i = b) ∨
      (b.length = a.length + 1 ∧ ∃ i, i < b.length ∧ b.eraseIdx i = a) := by
  unfold areOneAway areOneAwayLongShort
  by_cases hlt : a.length < b.length
  · rw [if_pos hlt]
    by_cases hgap : b.length - a.length > 1
    · rw [if_pos hgap]
      constructor
      · intro hf; cases hf
      · rintro (⟨h1, -⟩ | ⟨h1, -⟩) <;> omega
    · rw [if_neg hgap, if_neg (fun e => h e.symm), any_eraseIdx_iff]
      constructor
      · intro hex
        exact Or.inr ⟨by omega, hex⟩
      · rintro (⟨h1, -⟩ | ⟨-, hex⟩)
        · omega
        · exact hex
  · rw [if_neg hlt]
    by_cases hgap : a.length - b.length > 1
    · rw [if_pos hgap]
      constructor
      · intro hf; cases hf
      · rintro (⟨h1, -⟩ | ⟨h1, -⟩) <;> omega
    · rw [if_neg hgap, if_neg h, any_eraseIdx_iff]
      constructor
      · intro hex
        exact Or.inl ⟨by omega, hex⟩
      · rintro (⟨-, hex⟩ | ⟨h1, -⟩)
        · exact hex
        · omega

/-- When the lengths differ by more than one `areOneAway` is false. -/
theorem areOneAway_far (a b : Word) (h : b.length + 1 < a.length ∨ a.length + 1 < b.length) :
    areOneAway a b = false := by
  apply Bool.eq_false_iff.2
  intro htrue
  have hne : a.length ≠ b.length := by omega
  rcases (areOneAway_of_ne_length a b hne).1 htrue with ⟨h1, -⟩ | ⟨h1, -⟩ <;> omega

/-! ## Further lemmas on the graph of `wordChain` -/

/-- The reads through `at` on the graph that `wordChain` builds. -/
theorem oneAwayG_reads (words : List Word) :
    ∃ G, oneAwayG words = .ok G ∧ G.vertices = words.length ∧
      ∀ i, i < words.length → ∀ j, j < words.length →
        G.atRead i j = .ok (areOneAway (wordAt words i) (wordAt words j)) := by
  obtain ⟨G, hG, hwf, hsize, hadj⟩ := oneAwayG_spec words
  refine ⟨G, hG, hsize, ?_⟩
  intro i hi j hj
  rw [G.atRead_eq hwf i j (by rw [hsize]; exact hi) (by rw [hsize]; exact hj), hadj]
  simp [hi, hj]

/-! ## Further lemmas on graphs -/

theorem adj_out_of_range (G : Graph) (hwf : G.WF) (i j : Nat)
    (h : G.size ≤ i ∨ G.size ≤ j) : G.adj i j = false := by
  unfold Graph.adj
  by_cases hi : i < G.size
  · have hj : G.size ≤ j := by omega
    have hrow := G.row_length hwf i hi
    rw [List.getElem?_eq_none (by rw [hrow]; exact hj)]
    rfl
  · have hnone : G.matrix[i]? = none := List.getElem?_eq_none (by rw [hwf.1]; omega)
    rw [hnone]
    rfl

/-- Symmetry of the stored adjacency follows from symmetry inside the matrix. -/
theorem symm_of_bounded (G : Graph) (hwf : G.WF)
    (h : ∀ i, i < G.size → ∀ j, j < G.size → G.adj i j = G.adj j i) : G.Symm := by
  intro i j
  by_cases hi : i < G.size
  · by_cases hj : j < G.size
    · exact h i hi j hj
    · rw [adj_out_of_range G hwf i j (by omega), adj_out_of_range G hwf j i (by omega)]
  · rw [adj_out_of_range G hwf i j (by omega), adj_out_of_range G hwf j i (by omega)]

theorem pathGraph_wf : pathGraph.WF := ⟨rfl, by decide⟩

theorem pathGraph_symm : pathGraph.Symm := symm_of_bounded pathGraph pathGraph_wf (by decide)

theorem pathGraph_hamPath : pathGraph.HamPath [0, 1, 2] :=
  ⟨by decide, List.chain'_cons.2 ⟨by decide, List.chain'_cons.2 ⟨by decide,
    List.chain'_singleton _⟩⟩⟩

theorem loopGraph_wf : loopGraph.WF := ⟨rfl, by decide⟩

theorem starGraph_wf : starGraph.WF := ⟨rfl, by decide⟩

theorem reach_symm (G : Graph) (hsymm : G.Symm) (u v : Nat) (h : G.Reach u v) : G.Reach v u := by
  have hsym : Symmetric G.Edge := by
    intro a b hab
    exact ⟨hab.2.1, hab.1, by rw [hsymm]; exact hab.2.2⟩
  exact Relation.ReflTransGen.symmetric hsym h

/-- With a budget of at least the vertex count, `isConnected` returns `true` on a graph
with symmetric adjacency and a Hamiltonian path. -/
theorem isConnected_of_hamPath (G : Graph) (hwf : G.WF) (hsymm : G.Symm) (hpos : 0 < G.size)
    (fuel : Nat) (hfuel : G.size ≤ fuel) (p : List Nat) (hp : G.HamPath p) :
    isConnected fuel G = .ok true := by
  obtain ⟨b, hb, hiff⟩ := isConnected_spec G hwf hpos fuel hfuel
  rw [hb, hiff.2 (reach_of_hamPath G hsymm p hp)]

/-! ## Further lemmas on the table `HAM` -/

theorem filledHAM_spec (G : Graph) (hwf : G.WF) (hn : G.size ≤ 30) :
    ∃ H, filledHAM G = .ok H ∧ Filled G H := by
  obtain ⟨H0, hrun0, hwf0, hcell0⟩ := initSingletons_spec G.size
  obtain ⟨H, hrun, hfill⟩ := fillTable_spec G hwf H0 hwf0 hcell0
  refine ⟨H, ?_, hfill⟩
  unfold filledHAM shiftOne
  simp only [Graph.vertices, hn, if_true, run_pure, run_ok_bind, Nat.one_shiftLeft]
  rw [hrun0]
  simp only [run_ok_bind]
  exact hrun

/-- The function `findHamiltonianPath` is the backtracking loop run on the table that
the fill loops leave. -/
theorem findHamiltonianPath_filledHAM (G : Graph) (fuel : Nat) :
    findHamiltonianPath fuel G =
      filledHAM G >>= fun HAM => backtrack HAM G.vertices fuel (2 ^ G.vertices - 1) 0 [] := by
  unfold findHamiltonianPath filledHAM shiftOne
  by_cases hn : G.vertices ≤ 30
  · simp only [hn, if_true, run_pure, run_ok_bind, Nat.one_shiftLeft, bind_assoc]
  · simp only [hn, if_false, run_throw, run_error_bind]

theorem card_zero (n : Nat) : card n 0 = 0 := by
  simp [card]

theorem card_two_pow (n i : Nat) (hi : i < n) : card n (2 ^ i) = 1 := by
  have := card_xor n (2 ^ i) i hi Nat.testBit_two_pow_self
  rw [Nat.xor_self, card_zero] at this
  omega

/-- When the graph has no Hamiltonian path, no cell of the full-set row has `first`
set. -/
theorem filled_full_row (G : Graph) (H : Table) (hfill : Filled G H)
    (hno : ∀ p, ¬ G.HamPath p) (x : Nat) (hx : x < G.size) :
    (cell H (2 ^ G.size - 1) x).1 = false := by
  have hfull : 2 ^ G.size - 1 < 2 ^ G.size := by
    have := Nat.two_pow_pos G.size
    omega
  apply Bool.eq_false_iff.2
  intro hx1
  obtain ⟨e2, path, -, hpath, -, -, -⟩ := backtrack_spec G H hfill G.size
    (2 ^ G.size - 1) 0 [] hfull ⟨x, Nat.zero_le _, hx, hx1⟩ (card_le _ _)
  exact hno _ ((pathOver_full G _).1 hpath)

/-- On a filled table, a set cell `HAM[S][i]` gives a path over `S` that starts at `i`
(in the order in which the backtracking loop lists it). -/
theorem filled_sound (G : Graph) (H : Table) (hfill : Filled G H) (S i : Nat)
    (hS : S < 2 ^ G.size) (hi : i < G.size) (h : (cell H S i).1 = true) :
    ∃ path, PathOver G S (i :: path) := by
  obtain ⟨e, path, -, hpath, hie, -, hleast⟩ := backtrack_spec G H hfill G.size S i []
    hS ⟨i, Nat.le_refl i, hi, h⟩ (card_le _ _)
  have hei : e = i := by
    rcases Nat.lt_or_ge i e with hlt | hge
    · have := hleast i (Nat.le_refl i) hlt
      rw [this] at h
      cases h
    · omega
  rw [hei] at hpath
  exact ⟨path, hpath⟩

theorem maskOf_eq (S n : Nat) (hS : S < 2 ^ n) (l : List Nat)
    (hmem : ∀ v, v ∈ l ↔ v < n ∧ S.testBit v = true) : maskOf l = S := by
  apply Nat.eq_of_testBit_eq
  intro v
  rw [testBit_maskOf]
  by_cases hv : S.testBit v = true
  · have hvn := testBit_lt_of_lt_pow S n v hS hv
    rw [hv]
    simp [(hmem v).2 ⟨hvn, hv⟩]
  · have hnot : v ∉ l := fun hm => hv ((hmem v).1 hm).2
    rw [Bool.eq_false_iff.2 hv]
    simp [hnot]

/-- The meaning of a cell of the filled table, for a graph with symmetric adjacency:
`first` is set exactly when some sequence of distinct vertices lists the vertices of
`S`, ends at `i` and has every consecutive pair adjacent. -/
theorem filled_iff_path (G : Graph) (hsymm : G.Symm) (H : Table) (hfill : Filled G H)
    (S i : Nat) (hS : S < 2 ^ G.size) (hi : i < G.size) :
    (cell H S i).1 = true ↔
      ∃ p : List Nat, p.Nodup ∧ (∀ v, v ∈ p ↔ v < G.size ∧ S.testBit v = true) ∧
        p.getLast? = some i ∧ List.Chain' (fun a b => G.adj a b = true) p := by
  have hflip : ∀ l : List Nat, List.Chain' (fun a b => G.adj a b = true) l →
      List.Chain' (flip fun a b => G.adj a b = true) l := by
    intro l hl
    apply List.Chain'.imp _ hl
    intro a b hab
    show G.adj b a = true
    rw [hsymm]
    exact hab
  constructor
  · intro h
    obtain ⟨path, hnodup, hmem, hchain⟩ := filled_sound G H hfill S i hS hi h
    refine ⟨(i :: path).reverse, List.nodup_reverse.2 hnodup, ?_, ?_, ?_⟩
    · intro v
      rw [List.mem_reverse]
      exact hmem v
    · rw [List.getLast?_reverse]
      rfl
    · rw [List.chain'_reverse]
      exact hflip _ hchain
  · rintro ⟨p, hnodup, hmem, hlast, hchain⟩
    have hhead : p.reverse.head? = some i := by rw [List.head?_reverse]; exact hlast
    cases hrev : p.reverse with
    | nil => rw [hrev] at hhead; cases hhead
    | cons e rest =>
      rw [hrev] at hhead
      have hei : e = i := by simpa using hhead
      subst hei
      have hnodup2 : (e :: rest).Nodup := by rw [← hrev]; exact List.nodup_reverse.2 hnodup
      have hmem2 : ∀ v, v ∈ e :: rest ↔ v < G.size ∧ S.testBit v = true := by
        intro v
        rw [← hrev, List.mem_reverse]
        exact hmem v
      have hchain2 : List.Chain' (fun a b => G.adj a b = true) (e :: rest) := by
        rw [← hrev, List.chain'_reverse]
        exact hflip _ hchain
      have hcell := filled_complete G H hfill rest e hnodup2
        (fun v hv => ((hmem2 v).1 hv).1) hchain2
      rw [maskOf_eq S G.size hS (e :: rest) hmem2] at hcell
      exact hcell

/-! ## Further lemmas on `wordChain` -/

theorem foldlM_erase {σ τ : Type} (f : σ → Nat → Run σ) (g : σ × τ → Nat → Run (σ × τ))
    (h : ∀ s i r, g s i = .ok r → f s.1 i = .ok r.1) : ∀ (l : List Nat) (s r : σ × τ),
    l.foldlM g s = .ok r → l.foldlM f s.1 = .ok r.1 := by
  intro l
  induction l with
  | nil =>
    intro s r hr
    have : s = r := by simpa using hr
    rw [← this]
    rfl
  | cons i l ih =>
    intro s r hr
    rw [List.foldlM_cons] at hr ⊢
    cases hg : g s i with
    | error e => rw [hg] at hr; cases hr
    | ok s2 =>
      rw [hg] at hr
      rw [h s i s2 hg]
      exact ih s2 r hr

/-- Dropping the log of `BFSLog` gives the run of `BFS`. -/
theorem BFSLog_erase (G : Graph) : ∀ (fuel : Nat) (v : List Bool) (start : Nat)
    (r : List Bool × List Nat), BFSLog G fuel v start = .ok r → BFS G fuel v start = .ok r.1 := by
  intro fuel
  induction fuel with
  | zero =>
    intro v start r hr
    cases hr
  | succ fuel ih =>
    intro v start r hr
    rw [BFSLog] at hr
    rw [BFS]
    cases hw : writeAt v start true with
    | error e => rw [hw] at hr; cases hr
    | ok v1 =>
      rw [hw] at hr
      simp only [run_ok_bind] at hr ⊢
      refine foldlM_erase _ _ ?_ (List.range G.vertices) (v1, [start]) r hr
      intro s i r2 hr2
      dsimp only at hr2 ⊢
      cases hread : G.atRead start i with
      | error e => rw [hread] at hr2; cases hr2
      | ok edge =>
        rw [hread] at hr2
        simp only [run_ok_bind] at hr2 ⊢
        cases edge with
        | false =>
          simp only [Bool.false_eq_true, if_false, run_pure] at hr2 ⊢
          cases hr2
          rfl
        | true =>
          simp only [if_true] at hr2 ⊢
          cases hvis : readAt s.1 i with
          | error e => rw [hvis] at hr2; cases hr2
          | ok vis =>
            rw [hvis] at hr2
            simp only [run_ok_bind] at hr2 ⊢
            cases vis with
            | true =>
              simp only [Bool.not_true, Bool.false_eq_true, if_false, run_pure] at hr2 ⊢
              cases hr2
              rfl
            | false =>
              simp only [Bool.not_false, if_true] at hr2 ⊢
              cases hrec : BFSLog G fuel s.1 i with
              | error e => rw [hrec] at hr2; cases hr2
              | ok r3 =>
                rw [hrec] at hr2
                simp only [run_ok_bind, run_pure] at hr2
                cases hr2
                exact ih s.1 i r3 hrec

/-- Total correctness of `BFSLog`: started on an unmarked vertex with a depth budget of
at least the number of unmarked vertices, the call returns; marks are kept, and the log
begins with `start`, has no vertex twice, and lists only vertices that were unmarked
before the call and are marked after it. -/
theorem BFSLog_spec (G : Graph) (hwf : G.WF) : ∀ (fuel : Nat) (v : List Bool) (start : Nat),
    v.length = G.size → start < G.size → mark v start = false → v.count false ≤ fuel →
    ∃ t log, BFSLog G fuel v start = .ok (t, log) ∧ t.length = G.size ∧
      (∀ u, mark v u = true → mark t u = true) ∧ log.Nodup ∧ log.head? = some start ∧
      ∀ u, u ∈ log → mark v u = false ∧ mark t u = true := by
  intro fuel
  induction fuel with
  | zero =>
    intro v start hlen hstart hm hcount
    have := count_false_pos v start (by rw [hlen]; exact hstart) hm
    omega
  | succ fuel ih =>
    intro v start hlen hstart hm hcount
    have hs : start < v.length := by rw [hlen]; exact hstart
    have hc1 := count_false_set v start hs hm
    have hv1 : ∀ u, mark v u = true → mark (v.set start true) u = true := by
      intro u hu
      rw [mark_set v start u hs, hu]
      simp
    have hloop := foldlM_range_inv
      (fun (s : List Bool × List Nat) i => do
        if ← G.atRead start i then
          if !(← readAt s.1 i) then
            let r ← BFSLog G fuel s.1 i
            pure (r.1, s.2 ++ r.2)
          else pure s
        else pure s)
      (fun _ s => s.1.length = G.size ∧
        (∀ u, mark (v.set start true) u = true → mark s.1 u = true) ∧
        s.2.Nodup ∧ s.2.head? = some start ∧
        ∀ u, u ∈ s.2 → mark v u = false ∧ mark s.1 u = true)
      G.size (v.set start true, [start])
      ⟨by simp [hlen], fun u hu => hu, by simp, rfl, by
        intro u hu
        have : u = start := by simpa using hu
        rw [this]
        exact ⟨hm, by rw [mark_set v start start hs]; simp⟩⟩
      (by
        intro k s hk ⟨hslen, hmono, hnodup, hhead, hlog⟩
        dsimp only
        rw [G.atRead_eq hwf start k hstart hk]
        simp only [run_ok_bind]
        by_cases hadj : G.adj start k = true
        · rw [readAt_eq_getD s.1 k false (by rw [hslen]; exact hk)]
          simp only [run_ok_bind, hadj, if_true]
          by_cases hmk : mark s.1 k = true
          · have hmk2 : s.1[k]?.getD false = true := hmk
            exact ⟨s, by simp [hmk2], hslen, hmono, hnodup, hhead, hlog⟩
          · have hmk2 : s.1[k]?.getD false = false := Bool.eq_false_iff.2 hmk
            have hcount2 : s.1.count false ≤ fuel := by
              have := count_false_mono (v.set start true) s.1 (by simp [hlen, hslen]) hmono
              omega
            obtain ⟨t2, l2, hrun2, hlen2, hmono2, hnodup2, -, hlog2⟩ :=
              ih s.1 k hslen hk hmk2 hcount2
            refine ⟨(t2, s.2 ++ l2), by simp [hmk2, hrun2], hlen2,
              fun u hu => hmono2 u (hmono u hu), ?_, ?_, ?_⟩
            · rw [List.nodup_append]
              refine ⟨hnodup, hnodup2, ?_⟩
              intro u hu1 hu2
              have h1 := (hlog u hu1).2
              have h2 := (hlog2 u hu2).1
              rw [h1] at h2
              cases h2
            · cases hs2 : s.2 with
              | nil => rw [hs2] at hhead; cases hhead
              | cons x rest =>
                rw [hs2] at hhead
                simpa using hhead
            · intro u hu
              rcases List.mem_append.1 hu with hu1 | hu2
              · exact ⟨(hlog u hu1).1, hmono2 u (hlog u hu1).2⟩
              · refine ⟨?_, (hlog2 u hu2).2⟩
                apply Bool.eq_false_iff.2
                intro hvu
                have h1 := hmono u (hv1 u hvu)
                rw [(hlog2 u hu2).1] at h1
                cases h1
        · simp only [hadj]
          exact ⟨s, by simp, hslen, hmono, hnodup, hhead, hlog⟩)
    obtain ⟨s, hrun, hslen, hmono, hnodup, hhead, hlog⟩ := hloop
    refine ⟨s.1, s.2, ?_, hslen, fun u hu => hmono u (hv1 u hu), hnodup, hhead, hlog⟩
    rw [BFSLog, writeAt_of_lt v start true hs]
    exact hrun

/-- A call of `BFS` on an unmarked vertex leaves fewer unmarked vertices. -/
theorem count_false_lt_of_marks (v t : List Bool) (start : Nat) (hs : start < v.length)
    (hm : mark v start = false) (hlen : t.length = v.length)
    (hmono : ∀ u, mark v u = true → mark t u = true) (hstart : mark t start = true) :
    t.count false < v.count false := by
  have hc1 := count_false_set v start hs hm
  have := count_false_mono (v.set start true) t (by simp [hlen]) (by
    intro u hu
    rw [mark_set v start u hs] at hu
    by_cases hus : u = start
    · rw [hus]; exact hstart
    · exact hmono u (by simpa [hus] using hu))
  omega

/-! ## Further lemmas on the outcomes of `wordChain` -/

/-- C1. For every word list of at most 30 words, if `wordChain` returns a non-empty result
then the result has as many words as the input, it is the input read at a permutation of
its positions (so a permutation of the input), and every two consecutive words of it
satisfy `areOneAway`. -/
theorem wordChain_result_is_valid_chain (fuel : Nat) (words r : List Word)
    (hn : words.length ≤ 30) (h : wordChain fuel words = .ok r) (hr : r ≠ []) :
    r.length = words.length ∧
      (∃ order : List Nat, order.Perm (List.range words.length) ∧
        r = order.map (wordAt words)) ∧
      r.Perm words ∧ List.Chain' (fun a b => areOneAway a b = true) r := by
  obtain ⟨order, horder, hmap, hperm, hchain⟩ := wordChain_sound fuel words r hn h hr
  exact ⟨hperm.length_eq, ⟨order, horder, hmap⟩, hperm, hchain⟩

/-- Witness of C1 on the list `cat, cog, cot`. -/
theorem wordChain_result_is_valid_chain_witness :
    wordChain 3 chainWords = .ok (["cat", "cot", "cog"].map String.toList) ∧
      (["cat", "cot", "cog"].map String.toList).length = chainWords.length ∧
      (["cat", "cot", "cog"].map String.toList).Perm chainWords ∧
      List.Chain' (fun a b => areOneAway a b = true) (["cat", "cot", "cog"].map String.toList) :=
  have h := wordChain_result_is_valid_chain 3 chainWords (["cat", "cot", "cog"].map String.toList)
    (by decide) (by decide) (by decide)
  ⟨by decide, h.1, h.2.2.1, h.2.2.2⟩

/-- C2, as the code has it. For every non-empty word list of at most 30 words that has an
ordering in which each word is one edit away from the next, `wordChain` (with a budget of
at least the word count) returns a non-empty result, which is such an ordering. -/
theorem wordChain_finds_existing_chain (fuel : Nat) (words : List Word) (hne : words ≠ [])
    (hn : words.length ≤ 30) (hfuel : words.length ≤ fuel) (h : HasChain words) :
    ∃ r, wordChain fuel words = .ok r ∧ r ≠ [] ∧ r.Perm words ∧
      List.Chain' (fun a b => areOneAway a b = true) r :=
  wordChain_complete fuel words (List.length_pos.2 hne) hn hfuel h

/-- Witness of C2 (amended) on the list `cat, cog, cot`, whose ordering `cat, cot, cog`
is a chain. -/
theorem wordChain_finds_existing_chain_witness :
    ∃ r, wordChain 3 chainWords = .ok r ∧ r ≠ [] ∧ r.Perm chainWords ∧
      List.Chain' (fun a b => areOneAway a b = true) r :=
  wordChain_finds_existing_chain 3 chainWords (by decide) (by decide) (by decide)
    (hasChain_of_chainCheck chainWords (["cat", "cot", "cog"].map String.toList)
      (by decide) (by decide))

/-- Counterexample to C2 as stated: the 31 one-letter words `a`, ..., `z`, `A`, ..., `E`
are a chain in the order given, and `wordChain` returns no non-empty result on them,
whatever the budget (`1 << 31` overflows in `findHamiltonianPath`). -/
theorem wordChain_misses_chain_of_31_words :
    letterWords ≠ [] ∧ HasChain letterWords ∧
      ∀ fuel r, wordChain fuel letterWords = .ok r → r = [] :=
  ⟨by decide, hasChain_of_chainCheck letterWords letterWords (List.Perm.refl _) (by decide),
    fun fuel r h => wordChain_large fuel letterWords r (by decide) h⟩

/-- C3, at the failing input. The star `cat, cot, cab, bat` has no ordering that is a
chain, its graph is connected, and `wordChain` (with any budget of at least the word
count) does not return the empty sequence: it stops in the out-of-range read of line
110. -/
theorem wordChain_star_reads_out_of_range :
    ¬ HasChain starWords ∧
      (∀ G, oneAwayG starWords = .ok G → ∀ fuel, isConnected (fuel + 4) G = .ok true) ∧
      ∀ fuel, wordChain (fuel + 4) starWords = .error Fault.outOfRange := by
  have hrun : ∀ fuel, wordChain (fuel + 4) starWords = .error Fault.outOfRange := by
    intro fuel
    rw [wordChain_fuel starWords (by decide) (fuel + 4) (by simp [starWords])]
    decide
  refine ⟨?_, ?_, hrun⟩
  · intro hchain
    obtain ⟨r, hr, -⟩ := wordChain_complete 4 starWords (by decide) (by decide) (by decide) hchain
    have := hrun 0
    rw [hr] at this
    cases this
  · intro G hG fuel
    have hrun2 := hrun fuel
    unfold wordChain at hrun2
    rw [wordChainWith_eq _ _ starWords G hG] at hrun2
    obtain ⟨G2, hG2, hwf, hsize, -⟩ := oneAwayG_spec starWords
    have hGG : G2 = G := by
      rw [hG] at hG2
      cases hG2
      rfl
    subst hGG
    obtain ⟨b, hb, -⟩ := isConnected_spec G2 hwf (by rw [hsize]; decide) (fuel + 4)
      (by rw [hsize]; simp [starWords])
    rw [hb] at hrun2 ⊢
    cases b with
    | true => rfl
    | false => cases hrun2

/-- C4. When `isConnected` reports the one-away graph disconnected, `wordChain` returns
the empty sequence, whatever the solver in the place of `findHamiltonianPath` would do
(it is not called); in particular so for two or more words no two of which are one edit
apart (with a budget of at least the word count). -/
theorem wordChain_disconnected_returns_empty (solver : Graph → Run (List Nat)) (fuel : Nat)
    (words : List Word) :
    (∀ G, oneAwayG words = .ok G → isConnected fuel G = .ok false →
      wordChainWith solver fuel words = .ok []) ∧
    (2 ≤ words.length → words.length ≤ fuel →
      (∀ i, i < words.length → ∀ j, j < words.length →
        areOneAway (wordAt words i) (wordAt words j) = false) →
      wordChainWith solver fuel words = .ok []) := by
  constructor
  · intro G hG hcon
    rw [wordChainWith_eq solver fuel words G hG, hcon]
    rfl
  · intro h2 hfuel hno
    obtain ⟨G, hG, hwf, hsize, hadj⟩ := oneAwayG_spec words
    obtain ⟨b, hb, hiff⟩ := isConnected_spec G hwf (by omega) fuel (by omega)
    have hnoedge : ∀ i j, G.adj i j = false := by
      intro i j
      rw [hadj]
      by_cases hi : i < words.length
      · by_cases hj : j < words.length
        · simp [hno i hi j hj]
        · simp [hj]
      · simp [hi]
    have hbfalse : b = false := by
      cases b with
      | false => rfl
      | true =>
        have := reach_of_no_edge G hnoedge 1 (hiff.1 rfl 1 (by omega))
        omega
    rw [wordChainWith_eq solver fuel words G hG, hb, hbfalse]
    rfl

/-- Witness of C4 on the first test list of `main`, with a solver that would fault if it
were called. -/
theorem wordChain_disconnected_returns_empty_witness :
    wordChainWith (fun _ => .error Fault.outOfRange) 3 testWords1 = .ok [] :=
  (wordChain_disconnected_returns_empty (fun _ => .error Fault.outOfRange) 3 testWords1).2
    (by decide) (by decide) (by decide)

/-- C5. For all strings `a` and `b`, `areOneAway a b` is true exactly when `b` results
from `a` by one single-character insertion, deletion or substitution that changes the
string, and exactly when the Levenshtein distance between `a` and `b` (every edit of
cost 1) is 1. -/
theorem areOneAway_true_iff_one_edit (a b : Word) :
    (areOneAway a b = true ↔ OneEdit a b) ∧
      (areOneAway a b = true ↔ levenshtein Levenshtein.defaultCost a b = 1) :=
  ⟨areOneAway_iff_oneEdit a b, (areOneAway_iff_oneEdit a b).trans (lev_eq_one a b).symm⟩

/-- C6. For all strings `a` and `b`, `areOneAway a b` equals `areOneAway b a`. -/
theorem areOneAway_symmetric (a b : Word) : areOneAway a b = areOneAway b a :=
  areOneAway_comm a b

/-- C7. For every string `a`, the empty string included, `areOneAway a a` is false. -/
theorem areOneAway_irreflexive (a : Word) : areOneAway a a = false :=
  areOneAway_self a

/-- C8. For every word list and every permutation of it, `wordChain` (with a budget of at
least the word count) returns a non-empty result on the permuted list exactly when it
does on the original list. -/
theorem wordChain_nonempty_perm_invariant (fuel : Nat) (words words2 : List Word)
    (hperm : words2.Perm words) (hfuel : words.length ≤ fuel) :
    (∃ r, wordChain fuel words2 = .ok r ∧ r ≠ []) ↔ (∃ r, wordChain fuel words = .ok r ∧ r ≠ []) := by
  rw [wordChain_nonempty_iff fuel words hfuel,
    wordChain_nonempty_iff fuel words2 (by rw [hperm.length_eq]; exact hfuel), hperm.length_eq]
  constructor
  · rintro ⟨h1, h2, h3⟩
    exact ⟨h1, h2, hasChain_perm words2 words hperm.symm h3⟩
  · rintro ⟨h1, h2, h3⟩
    exact ⟨h1, h2, hasChain_perm words words2 hperm h3⟩

/-- Witness of C8 on `cat, cog, cot` and its reordering `cog, cot, cat`. -/
theorem wordChain_nonempty_perm_invariant_witness :
    (∃ r, wordChain 3 chainWordsShuffled = .ok r ∧ r ≠ []) ↔
      (∃ r, wordChain 3 chainWords = .ok r ∧ r ≠ []) :=
  wordChain_nonempty_perm_invariant 3 chainWords chainWordsShuffled (by decide) (by decide)

/-- C9. For every one-word input `[w]`, `wordChain` (with any budget of at least 1)
returns exactly `[w]`. -/
theorem wordChain_single_word (fuel : Nat) (w : Word) : wordChain (fuel + 1) [w] = .ok [w] := by
  obtain ⟨r, hrun, -, hperm, -⟩ := wordChain_complete (fuel + 1) [w] (by simp) (by simp)
    (by simp) ⟨[w], List.Perm.refl _, List.chain'_singleton _⟩
  rw [hrun, List.perm_singleton.1 hperm]

/-- C10, at the failing input. On the zero-vertex graph `findHamiltonianPath` returns the
empty order, but `isConnected` does not return `true`: `BFS` marks `visited[0]` in an
array of length 0, an out-of-range write, and so `wordChain` on the empty list does not
return the empty sequence without error. -/
theorem wordChain_empty_list_writes_out_of_range (fuel : Nat) :
    findHamiltonianPath fuel (Graph.new 0) = .ok [] ∧
      oneAwayG [] = .ok (Graph.new 0) ∧
      BFS (Graph.new 0) (fuel + 1) (List.replicate (Graph.new 0).vertices false) 0 =
        .error Fault.outOfRange ∧
      isConnected (fuel + 1) (Graph.new 0) = .error Fault.outOfRange ∧
      wordChain (fuel + 1) [] = .error Fault.outOfRange := by
  refine ⟨?_, rfl, rfl, rfl, rfl⟩
  cases fuel <;> rfl

/-- C12. For every graph with symmetric adjacency on at most 30 vertices, the fill loops
of `findHamiltonianPath` run without a fault and leave a table in which, for every
subset `S` and every vertex `i` in `S`, `HAM[S][i].first` is true exactly when some
sequence of distinct vertices lists exactly the vertices of `S`, ends at `i` and has
every consecutive pair adjacent; and when it is true and `S` has two or more vertices,
`HAM[S][i].second` is a vertex `j` of `S` other than `i`, adjacent to `i`, with
`HAM[S \ {i}][j].first` true. -/
theorem filledHAM_cell_iff_path (G : Graph) (hwf : G.WF) (hsymm : G.Symm) (hn : G.size ≤ 30) :
    ∃ H, filledHAM G = .ok H ∧
      ∀ S i, S < 2 ^ G.size → i < G.size → S.testBit i = true →
        readHAM H S i = .ok (cell H S i) ∧
        ((cell H S i).1 = true ↔
          ∃ p : List Nat, p.Nodup ∧ (∀ v, v ∈ p ↔ v < G.size ∧ S.testBit v = true) ∧
            p.getLast? = some i ∧ List.Chain' (fun a b => G.adj a b = true) p) ∧
        ((cell H S i).1 = true → 2 ≤ card G.size S →
          (cell H S i).2 < G.size ∧ (cell H S i).2 ≠ i ∧
          S.testBit (cell H S i).2 = true ∧ (S ^^^ 2 ^ i).testBit (cell H S i).2 = true ∧
          G.adj i (cell H S i).2 = true ∧
          (cell H (S ^^^ 2 ^ i) (cell H S i).2).1 = true) := by
  obtain ⟨H, hrun, hfill⟩ := filledHAM_spec G hwf hn
  refine ⟨H, hrun, ?_⟩
  intro S i hS hi hbit
  refine ⟨readHAM_eq H G.size hfill.1 S i hS hi, filled_iff_path G hsymm H hfill S i hS hi, ?_⟩
  intro hfirst hcard
  have hne : S ≠ 2 ^ i := by
    intro heq
    rw [heq, card_two_pow G.size i hi] at hcard
    omega
  obtain ⟨h1, h2, h3, h4, h5⟩ := (hfill.2 S i hS hi).2 hfirst hne
  refine ⟨h1, h2, h3, ?_, h4, h5⟩
  rw [testBit_xor_pow, h3]
  have : ¬ i = (cell H S i).2 := fun e => h2 e.symm
  simp [this]

/-- Witness of C12 on the path `0 - 1 - 2`. -/
theorem filledHAM_cell_iff_path_witness :
    ∃ H, filledHAM pathGraph = .ok H ∧
      ∀ S i, S < 2 ^ pathGraph.size → i < pathGraph.size → S.testBit i = true →
        readHAM H S i = .ok (cell H S i) ∧
        ((cell H S i).1 = true ↔
          ∃ p : List Nat, p.Nodup ∧ (∀ v, v ∈ p ↔ v < pathGraph.size ∧ S.testBit v = true) ∧
            p.getLast? = some i ∧ List.Chain' (fun a b => pathGraph.adj a b = true) p) ∧
        ((cell H S i).1 = true → 2 ≤ card pathGraph.size S →
          (cell H S i).2 < pathGraph.size ∧ (cell H S i).2 ≠ i ∧
          S.testBit (cell H S i).2 = true ∧ (S ^^^ 2 ^ i).testBit (cell H S i).2 = true ∧
          pathGraph.adj i (cell H S i).2 = true ∧
          (cell H (S ^^^ 2 ^ i) (cell H S i).2).1 = true) :=
  filledHAM_cell_iff_path pathGraph pathGraph_wf pathGraph_symm (by decide)

/-- C13. For every graph with symmetric adjacency on between 1 and 30 vertices that has a
Hamiltonian path, `findHamiltonianPath` (with a budget of at least the vertex count)
returns an order of length `n` that contains every vertex index below `n` exactly once
and in which every two consecutive indices are adjacent. -/
theorem findHamiltonianPath_returns_hamiltonian_path (G : Graph) (fuel : Nat) (hwf : G.WF)
    (hsymm : G.Symm) (hpos : 0 < G.size) (hn : G.size ≤ 30) (hfuel : G.size ≤ fuel)
    (hp : ∃ p, G.HamPath p) :
    ∃ order, findHamiltonianPath fuel G = .ok order ∧ order.length = G.size ∧
      order.Nodup ∧ (∀ v, v ∈ order ↔ v < G.size) ∧
      List.Chain' (fun a b => G.adj a b = true ∧ G.adj b a = true) order := by
  obtain ⟨p, hp⟩ := hp
  obtain ⟨order, hrun, hham, -⟩ := findHamiltonianPath_complete G hwf hn fuel hfuel p hp hpos
  refine ⟨order, hrun, ?_, hham.1.nodup_iff.2 (List.nodup_range _), ?_, ?_⟩
  · rw [hham.1.length_eq, List.length_range]
  · intro v
    rw [hham.1.mem_iff, List.mem_range]
  · apply List.Chain'.imp _ hham.2
    intro a b hab
    exact ⟨hab, by rw [hsymm]; exact hab⟩

/-- Witness of C13 on the path `0 - 1 - 2`. -/
theorem findHamiltonianPath_returns_hamiltonian_path_witness :
    ∃ order, findHamiltonianPath 3 pathGraph = .ok order ∧ order.length = pathGraph.size ∧
      order.Nodup ∧ (∀ v, v ∈ order ↔ v < pathGraph.size) ∧
      List.Chain' (fun a b => pathGraph.adj a b = true ∧ pathGraph.adj b a = true) order :=
  findHamiltonianPath_returns_hamiltonian_path pathGraph 3 pathGraph_wf pathGraph_symm
    (by decide) (by decide) (by decide) ⟨[0, 1, 2], pathGraph_hamPath⟩

/-- C14, at the failing input. The graph of the star `cat, cot, cab, bat` has no
Hamiltonian path and no cell of the full-set row of the filled table has `first` set, yet
`findHamiltonianPath` does not return the empty order: the scan of line 110 runs past
column 3 and reads outside the row. -/
theorem findHamiltonianPath_star_reads_past_row :
    oneAwayG starWords = .ok starGraph ∧ (∀ p, ¬ starGraph.HamPath p) ∧
      (∀ H, filledHAM starGraph = .ok H → ∀ i, i < 4 → (cell H 15 i).1 = false) ∧
      (∀ H, filledHAM starGraph = .ok H → findEndpoint H 15 0 = .error Fault.outOfRange) ∧
      ∀ fuel, findHamiltonianPath (fuel + 1) starGraph = .error Fault.outOfRange := by
  have hno : ∀ p, ¬ starGraph.HamPath p := by
    intro p hp
    obtain ⟨order, hrun, -, -⟩ := findHamiltonianPath_complete starGraph starGraph_wf
      (by decide) 4 (by decide) p hp (by decide)
    have hfault : findHamiltonianPath 4 starGraph = .error Fault.outOfRange := by decide
    rw [hfault] at hrun
    cases hrun
  obtain ⟨H, hrun, hfill⟩ := filledHAM_spec starGraph starGraph_wf (by decide)
  have hrow : ∀ i, i < 4 → (cell H 15 i).1 = false :=
    fun i hi => filled_full_row starGraph H hfill hno i hi
  refine ⟨by decide, hno, ?_, ?_, ?_⟩
  · intro H2 hH2
    rw [hrun] at hH2
    cases hH2
    exact hrow
  · intro H2 hH2
    rw [hrun] at hH2
    cases hH2
    exact findEndpoint_none H 4 hfill.1 15 0 (by decide) (fun x _ hx => hrow x hx)
  · intro fuel
    exact findHamiltonianPath_fault starGraph starGraph_wf (by decide) (by decide) hno fuel

/-- C15. For every graph on at least one vertex, `isConnected` (with a budget of at least
the vertex count) returns, and it returns `true` exactly when every vertex is reachable
from vertex 0 along edges; for a graph with symmetric adjacency that is exactly when
every vertex is reachable from every other vertex. -/
theorem isConnected_iff_all_reachable (G : Graph) (fuel : Nat) (hwf : G.WF)
    (hpos : 0 < G.size) (hfuel : G.size ≤ fuel) :
    ∃ b, isConnected fuel G = .ok b ∧
      (b = true ↔ ∀ u, u < G.size → G.Reach 0 u) ∧
      (G.Symm → (b = true ↔ ∀ u, u < G.size → ∀ v, v < G.size → G.Reach u v)) := by
  obtain ⟨b, hb, hiff⟩ := isConnected_spec G hwf hpos fuel hfuel
  refine ⟨b, hb, hiff, ?_⟩
  intro hsymm
  rw [hiff]
  constructor
  · intro h u hu v hv
    exact Relation.ReflTransGen.trans (reach_symm G hsymm 0 u (h u hu)) (h v hv)
  · intro h u hu
    exact h 0 hpos u hu

/-- Witness of C15 on the path `0 - 1 - 2`. -/
theorem isConnected_iff_all_reachable_witness :
    ∃ b, isConnected 3 pathGraph = .ok b ∧
      (b = true ↔ ∀ u, u < pathGraph.size → pathGraph.Reach 0 u) ∧
      (pathGraph.Symm →
        (b = true ↔ ∀ u, u < pathGraph.size → ∀ v, v < pathGraph.size → pathGraph.Reach u v)) :=
  isConnected_iff_all_reachable pathGraph 3 pathGraph_wf (by decide) (by decide)

/-- C16. For every graph with symmetric adjacency on at least one vertex that has a
Hamiltonian path, `isConnected` (with a budget of at least the vertex count) returns
`true`; so for every word list whose one-away graph it is, `wordChain` passes the gate
of line 141 and its result is that of the solver. -/
theorem isConnected_true_of_hamiltonian_path (G : Graph) (fuel : Nat) (hwf : G.WF)
    (hsymm : G.Symm) (hpos : 0 < G.size) (hfuel : G.size ≤ fuel) (hp : ∃ p, G.HamPath p) :
    isConnected fuel G = .ok true ∧
      ∀ (solver : Graph → Run (List Nat)) (words : List Word), oneAwayG words = .ok G →
        wordChainWith solver fuel words =
          (solver G >>= fun order => collectWords words order) := by
  obtain ⟨p, hp⟩ := hp
  have hcon := isConnected_of_hamPath G hwf hsymm hpos fuel hfuel p hp
  refine ⟨hcon, ?_⟩
  intro solver words hG
  rw [wordChainWith_eq solver fuel words G hG, hcon]
  rfl

/-- Witness of C16 on the path `0 - 1 - 2`. -/
theorem isConnected_true_of_hamiltonian_path_witness :
    isConnected 3 pathGraph = .ok true ∧
      ∀ (solver : Graph → Run (List Nat)) (words : List Word), oneAwayG words = .ok pathGraph →
        wordChainWith solver 3 words =
          (solver pathGraph >>= fun order => collectWords words order) :=
  isConnected_true_of_hamiltonian_path pathGraph 3 pathGraph_wf pathGraph_symm (by decide)
    (by decide) ⟨[0, 1, 2], pathGraph_hamPath⟩

/-- C17. On every graph, cycles and self-loops included, a call of `BFS` on a vertex not
yet marked returns when the depth budget is at least the number of unmarked vertices:
the run with the log of calls returns, `BFS` returns the same array, no vertex is the
start of two calls, every call is made on a vertex that was unmarked and marks it, marks
are kept, and the number of unmarked vertices strictly decreases. -/
theorem BFS_terminates_each_vertex_once (G : Graph) (fuel : Nat) (visited : List Bool)
    (start : Nat) (hwf : G.WF) (hlen : visited.length = G.size) (hstart : start < G.size)
    (hun : mark visited start = false) (hfuel : visited.count false ≤ fuel) :
    ∃ t log, BFSLog G fuel visited start = .ok (t, log) ∧ BFS G fuel visited start = .ok t ∧
      log.Nodup ∧ log.head? = some start ∧
      (∀ u, u ∈ log → mark visited u = false ∧ mark t u = true) ∧
      (∀ u, mark visited u = true → mark t u = true) ∧
      t.count false < visited.count false := by
  obtain ⟨t, log, hrun, htlen, hmono, hnodup, hhead, hlog⟩ :=
    BFSLog_spec G hwf fuel visited start hlen hstart hun hfuel
  have hmem : start ∈ log := by
    cases hl : log with
    | nil => rw [hl] at hhead; cases hhead
    | cons x rest =>
      rw [hl] at hhead
      have : x = start := by simpa using hhead
      rw [this]
      exact List.mem_cons_self _ _
  refine ⟨t, log, hrun, BFSLog_erase G fuel visited start (t, log) hrun, hnodup, hhead, hlog,
    hmono, ?_⟩
  exact count_false_lt_of_marks visited t start (by rw [hlen]; exact hstart) hun
    (by rw [htlen, hlen]) hmono (hlog start hmem).2

/-- Witness of C17 on a triangle with a self-loop at vertex 0: the traversal from vertex
0 makes three calls, on the vertices 0, 1 and 2. -/
theorem BFS_terminates_each_vertex_once_witness :
    BFSLog loopGraph 3 [false, false, false] 0 = .ok ([true, true, true], [0, 1, 2]) ∧
      ∃ t log, BFSLog loopGraph 3 [false, false, false] 0 = .ok (t, log) ∧
        BFS loopGraph 3 [false, false, false] 0 = .ok t ∧
        log.Nodup ∧ log.head? = some 0 ∧
        (∀ u, u ∈ log → mark [false, false, false] u = false ∧ mark t u = true) ∧
        (∀ u, mark [false, false, false] u = true → mark t u = true) ∧
        t.count false < [false, false, false].count false :=
  ⟨by decide,
    BFS_terminates_each_vertex_once loopGraph 3 [false, false, false] 0 loopGraph_wf
      (by decide) (by decide) (by decide) (by decide)⟩

/-- C18. For every word list of length `n`, the graph that `wordChain` builds has `n`
vertices and, for all `i, j < n`, the entry read through `at(i, j)` is `areOneAway` of
the words at positions `i` and `j`; so the entry at `(i, j)` equals the entry at `(j, i)`
and the entry at `(i, i)` is false, duplicates in the list or not. -/
theorem oneAwayG_edges_are_areOneAway (words : List Word) :
    ∃ G, oneAwayG words = .ok G ∧ G.vertices = words.length ∧
      ∀ i, i < words.length → ∀ j, j < words.length →
        G.atRead i j = .ok (areOneAway (wordAt words i) (wordAt words j)) ∧
        G.atRead i j = G.atRead j i ∧
        G.atRead i i = .ok false := by
  obtain ⟨G, hG, hsize, hread⟩ := oneAwayG_reads words
  refine ⟨G, hG, hsize, ?_⟩
  intro i hi j hj
  refine ⟨hread i hi j hj, ?_, ?_⟩
  · rw [hread i hi j hj, hread j hj i hi, areOneAway_comm]
  · rw [hread i hi i hi, areOneAway_self]

/-- C19. For all strings `a` and `b` of equal length, `areOneAway a b` is true exactly
when `a` and `b` differ at exactly one position. -/
theorem areOneAway_equal_length_iff_one_position (a b : Word) (h : a.length = b.length) :
    areOneAway a b = true ↔ ∃! i, i < a.length ∧ a[i]? ≠ b[i]? :=
  areOneAway_of_eq_length a b h

/-- Witness of C19 on `dog` and `hog`, with the two values the claim names: `dog`/`hog`
is true and two empty strings give false. -/
theorem areOneAway_equal_length_iff_one_position_witness :
    (areOneAway "dog".toList "hog".toList = true ↔
      ∃! i, i < "dog".toList.length ∧ "dog".toList[i]? ≠ "hog".toList[i]?) ∧
    areOneAway "dog".toList "hog".toList = true ∧ areOneAway [] [] = false :=
  ⟨areOneAway_equal_length_iff_one_position "dog".toList "hog".toList (by decide),
    by decide, by decide⟩

/-- C20. For all strings `a` and `b` of different lengths, `areOneAway a b` is true
exactly when the lengths differ by one and deleting the character at some position of
the longer string gives the shorter one, whichever of the two arguments is the longer;
it is false when the lengths differ by more than one, and the value does not depend on
the order of the arguments. -/
theorem areOneAway_different_length_iff_deletion (a b : Word) (h : a.length ≠ b.length) :
    (areOneAway a b = true ↔
      (a.length = b.length + 1 ∧ ∃ i, i < a.length ∧ a.eraseIdx i = b) ∨
      (b.length = a.length + 1 ∧ ∃ i, i < b.length ∧ b.eraseIdx i = a)) ∧
    (b.length + 1 < a.length ∨ a.length + 1 < b.length → areOneAway a b = false) ∧
    areOneAway b a = areOneAway a b :=
  ⟨areOneAway_of_ne_length a b h, areOneAway_far a b, areOneAway_comm b a⟩

/-- Witness of C20 on `coat` and `cat`, with the values the claim names: `coat`/`cat` is
true, `coat`/`hat` and `coat`/`dog` are false, and the empty string against a
one-character string is true in both orders. -/
theorem areOneAway_different_length_iff_deletion_witness :
    (areOneAway "coat".toList "cat".toList = true ↔
      ("coat".toList.length = "cat".toList.length + 1 ∧
        ∃ i, i < "coat".toList.length ∧ "coat".toList.eraseIdx i = "cat".toList) ∨
      ("cat".toList.length = "coat".toList.length + 1 ∧
        ∃ i, i < "cat".toList.length ∧ "cat".toList.eraseIdx i = "coat".toList)) ∧
    areOneAway "coat".toList "cat".toList = true ∧
    areOneAway "coat".toList "hat".toList = false ∧
    areOneAway "coat".toList "dog".toList = false ∧
    (∀ c : Char, areOneAway [] [c] = true ∧ areOneAway [c] [] = true) :=
  ⟨(areOneAway_different_length_iff_deletion "coat".toList "cat".toList (by decide)).1,
    by decide, by decide, by decide,
    fun c => ⟨by simp [areOneAway, areOneAwayLongShort],
      by simp [areOneAway, areOneAwayLongShort]⟩⟩

end Szolanc
